import Mathlib

/-!
# gotodoist: a shallow embedding of the Todoist REST client

The Go package `todoist` (file `todoist.go`), its test helpers (`todoist_test.go`) and the
task loop of the example driver (`cmd/main.go`) are translated to Lean definitions.

Conventions of the embedding:

* a Go `string` or `[]byte` is a list of bytes (`GoString`); a byte is a natural number below 256;
* a Go `int` is an `Int` (64-bit range where the range matters, see `isInt64`);
* a Go result pair `(T, error)` is a pair of options, `none` standing for `nil`;
* `fmt.Sprintf`, `unicode/utf8` and `encoding/json` are modelled from their documented
  behaviour, as far as the package uses them;
* the network and the remaining library calls (`url.Parse` inside `http.NewRequestWithContext`,
  the default transport, `time.Parse`) are parameters, collected in `Lib`;
* each call records the requests it hands to `c.client.Do` in the field `sent`.
-/

namespace Todoist

/-! ## Strings and formatting -/

/-- A Go string (or byte slice): a sequence of bytes. -/
abbrev GoString := List Nat

/-- Go `utf8.EncodeRune`: the UTF-8 encoding of the code point `r`; surrogates and values
above U+10FFFF are encoded as U+FFFD. -/
def encodeRune (r : Nat) : GoString :=
  if r < 0x80 then [r]
  else if r < 0x800 then [0xC0 + r / 64, 0x80 + r % 64]
  else if 0xD800 ≤ r ∧ r < 0xE000 then [0xEF, 0xBF, 0xBD]
  else if r < 0x10000 then [0xE0 + r / 4096, 0x80 + r / 64 % 64, 0x80 + r % 64]
  else if r < 0x110000 then
    [0xF0 + r / 262144, 0x80 + r / 4096 % 64, 0x80 + r / 64 % 64, 0x80 + r % 64]
  else [0xEF, 0xBF, 0xBD]

/-- The bytes of a string constant of the source (its UTF-8 encoding). -/
def bytesOf (s : String) : GoString := s.data.flatMap fun c => encodeRune c.toNat

/-- Decimal digits of `n`, most significant first, prepended to `acc`
(the digit loop of `strconv.FormatInt`); `fuel` bounds the number of digits. -/
def fmtNatAux : Nat → Nat → GoString → GoString
  | 0, _, acc => acc
  | fuel + 1, n, acc =>
    if n < 10 then (48 + n) :: acc else fmtNatAux fuel (n / 10) ((48 + n % 10) :: acc)

/-- Decimal representation of a natural number. -/
def fmtNat (n : Nat) : GoString := fmtNatAux (n + 1) n []

/-- The verb `%d` on an `int`: an optional minus sign and the decimal digits. -/
def fmtInt : Int → GoString
  | Int.ofNat n => fmtNat n
  | Int.negSucc n => 45 :: fmtNat (n + 1)

/-- An operand of `fmt.Sprintf`. -/
inductive Arg where
  | str (s : GoString)
  | int (n : Int)
  deriving DecidableEq, Repr

/-- Go type name of an operand, as printed in the diagnostics of `fmt`. -/
def Arg.typeName : Arg → GoString
  | .str _ => bytesOf "string"
  | .int _ => bytesOf "int"

/-- The verb `%v` on an operand. -/
def Arg.value : Arg → GoString
  | .str s => s
  | .int n => fmtInt n

/-- The text `fmt` prints for operands that no directive consumed. -/
def fmtExtra : List Arg → GoString
  | [] => []
  | [a] => a.typeName ++ 61 :: a.value
  | a :: rest => a.typeName ++ 61 :: a.value ++ bytesOf ", " ++ fmtExtra rest

/-- Go `fmt.Sprintf` on the fragment this package uses: the verbs `%s`, `%d`, `%v` without
flags, and `%%`, over string and integer operands. A verb that does not fit its operand, a
missing operand and surplus operands print the diagnostics of `fmt`
(`%!d(string=x)`, `%!d(MISSING)`, `%!(EXTRA ...)`, `%!(NOVERB)`); all other verbs are treated
as not fitting. -/
def Sprintf : GoString → List Arg → GoString
  | [], [] => []
  | [], a :: args => bytesOf "%!(EXTRA " ++ fmtExtra (a :: args) ++ [41]
  | [c], args => if c = 37 then bytesOf "%!(NOVERB)" ++ Sprintf [] args else c :: Sprintf [] args
  | c :: v :: rest, args =>
    if c = 37 then
      if v = 37 then 37 :: Sprintf rest args
      else match args with
        | [] => 37 :: 33 :: v :: bytesOf "(MISSING)" ++ Sprintf rest []
        | a :: args =>
          if v = 118 then a.value ++ Sprintf rest args
          else match a with
            | .str s =>
              if v = 115 then s ++ Sprintf rest args
              else 37 :: 33 :: v :: 40 :: a.typeName ++ 61 :: a.value ++ 41 :: Sprintf rest args
            | .int n =>
              if v = 100 then fmtInt n ++ Sprintf rest args
              else 37 :: 33 :: v :: 40 :: a.typeName ++ 61 :: a.value ++ 41 :: Sprintf rest args
    else c :: Sprintf (v :: rest) args

/-! ## Errors -/

/-- A Go `error` value. -/
inductive GoError where
  /-- The value `errors.New(text)`. -/
  | errorsNew (text : GoString)
  /-- The value `fmt.Errorf(format, args...)` for a format without `%w`; `text` is the message. -/
  | errorf (text : GoString)
  /-- The value `fmt.Errorf(text + "%w", cause)`: its message is `text` followed by the
  message of `cause`, and it unwraps to `cause`. -/
  | wrap (text : GoString) (cause : GoError)
  /-- An error created outside this package (transport, URL parsing, body reader),
  identified by `code`. -/
  | ext (code : Nat)
  /-- The input of `json.Unmarshal` is not a JSON text (`*json.SyntaxError`). -/
  | jsonMalformed
  /-- A JSON value does not fit the Go value it is decoded into, or a number overflows it
  (`*json.UnmarshalTypeError`). -/
  | jsonMismatch
  deriving DecidableEq, Repr

/-- Go `fmt.Errorf` for a format without the verb `%w`. -/
def Errorf (format : GoString) (args : List Arg) : GoError := .errorf (Sprintf format args)

/-! ## UTF-8 -/

/-- A UTF-8 continuation byte. -/
def isCont (b : Nat) : Bool := decide (0x80 ≤ b ∧ b < 0xC0)

/-- Smallest second byte accepted after the leading byte `b0` of a 3- or 4-byte sequence. -/
def secondLo (b0 : Nat) : Nat := if b0 = 0xE0 then 0xA0 else if b0 = 0xF0 then 0x90 else 0x80

/-- Largest second byte accepted after the leading byte `b0` of a 3- or 4-byte sequence. -/
def secondHi (b0 : Nat) : Nat := if b0 = 0xED then 0x9F else if b0 = 0xF4 then 0x8F else 0xBF

/-- Go `utf8.DecodeRune`: the first code point of `s` and the number of bytes it occupies.
An empty input gives `(U+FFFD, 0)`; a byte that does not start a well-formed, shortest-form
encoding of a Unicode scalar value gives `(U+FFFD, 1)`. -/
def decodeRune : GoString → Nat × Nat
  | [] => (0xFFFD, 0)
  | b0 :: rest =>
    if b0 < 0x80 then (b0, 1)
    else if b0 < 0xC2 then (0xFFFD, 1)
    else if b0 < 0xE0 then
      match rest with
      | b1 :: _ => if isCont b1 then ((b0 - 0xC0) * 64 + (b1 - 0x80), 2) else (0xFFFD, 1)
      | [] => (0xFFFD, 1)
    else if b0 < 0xF0 then
      match rest with
      | b1 :: b2 :: _ =>
        if secondLo b0 ≤ b1 ∧ b1 ≤ secondHi b0 ∧ isCont b2 then
          ((b0 - 0xE0) * 4096 + (b1 - 0x80) * 64 + (b2 - 0x80), 3)
        else (0xFFFD, 1)
      | _ => (0xFFFD, 1)
    else if b0 < 0xF5 then
      match rest with
      | b1 :: b2 :: b3 :: _ =>
        if secondLo b0 ≤ b1 ∧ b1 ≤ secondHi b0 ∧ isCont b2 ∧ isCont b3 then
          ((b0 - 0xF0) * 262144 + (b1 - 0x80) * 4096 + (b2 - 0x80) * 64 + (b3 - 0x80), 4)
        else (0xFFFD, 1)
      | _ => (0xFFFD, 1)
    else (0xFFFD, 1)

/-- A Unicode scalar value: a code point that is not a surrogate. -/
def isScalar (r : Nat) : Prop := r < 0xD800 ∨ (0xE000 ≤ r ∧ r < 0x110000)

instance (r : Nat) : Decidable (isScalar r) := by unfold isScalar; infer_instance

/-- The string is well-formed UTF-8: it is the encoding of a sequence of scalar values. -/
def ValidUTF8 (s : GoString) : Prop :=
  ∃ rs : List Nat, (∀ r ∈ rs, isScalar r) ∧ s = rs.flatMap encodeRune

/-- The loop of Go `utf8.Valid`: no position decodes to the error rune of width one. -/
def utf8Valid : Nat → GoString → Bool
  | _, [] => true
  | 0, _ :: _ => false
  | fuel + 1, b :: rest =>
    if (decodeRune (b :: rest)).1 = 0xFFFD ∧ (decodeRune (b :: rest)).2 = 1 then false
    else utf8Valid fuel (rest.drop ((decodeRune (b :: rest)).2 - 1))

/-- Go `utf8.ValidString`. -/
def validString (s : GoString) : Bool := utf8Valid s.length s

/-! ## encoding/json: text layer

The model follows the documented behaviour of `encoding/json` (Go 1.15 to 1.21): the encoder's
string escaping with HTML escaping switched on, the scanner's grammar with its nesting limit,
and the decoder's unquoting. -/

/-- The lower-case hexadecimal digit of `n < 16`. -/
def hexDigit (n : Nat) : Nat := if n < 10 then 48 + n else 87 + n

/-- The table `htmlSafeSet` on ASCII bytes: printable and none of `"`, `&`, `<`, `>`, `\`. -/
def htmlSafe (b : Nat) : Bool :=
  decide (0x20 ≤ b ∧ b ≠ 34 ∧ b ≠ 38 ∧ b ≠ 60 ∧ b ≠ 62 ∧ b ≠ 92)

/-- The body of `encodeState.string` with `escapeHTML = true`: the text between the quotes.
`fuel` bounds the number of iterations of the loop. -/
def quoteAux : Nat → GoString → GoString
  | 0, _ => []
  | _, [] => []
  | fuel + 1, b :: rest =>
    if b < 0x80 then
      if htmlSafe b then b :: quoteAux fuel rest
      else if b = 92 ∨ b = 34 then 92 :: b :: quoteAux fuel rest
      else if b = 10 then 92 :: 110 :: quoteAux fuel rest
      else if b = 13 then 92 :: 114 :: quoteAux fuel rest
      else if b = 9 then 92 :: 116 :: quoteAux fuel rest
      else 92 :: 117 :: 48 :: 48 :: hexDigit (b / 16) :: hexDigit (b % 16) :: quoteAux fuel rest
    else
      let d := decodeRune (b :: rest)
      if d.1 = 0xFFFD ∧ d.2 = 1 then
        92 :: 117 :: 102 :: 102 :: 102 :: 100 :: quoteAux fuel rest
      else if d.1 = 0x2028 ∨ d.1 = 0x2029 then
        92 :: 117 :: 50 :: 48 :: 50 :: hexDigit (d.1 % 16) :: quoteAux fuel (rest.drop (d.2 - 1))
      else b :: rest.take (d.2 - 1) ++ quoteAux fuel (rest.drop (d.2 - 1))

/-- The JSON string literal the encoder writes for a Go string. -/
def appendString (s : GoString) : GoString := 34 :: quoteAux s.length s ++ [34]

/-- JSON whitespace. -/
def isWS (c : Nat) : Bool := decide (c = 32 ∨ c = 9 ∨ c = 13 ∨ c = 10)

/-- Drop leading whitespace. -/
def skipWS : GoString → GoString
  | [] => []
  | c :: rest => if isWS c then skipWS rest else c :: rest

/-- A decimal digit. -/
def isDigit (c : Nat) : Bool := decide (48 ≤ c ∧ c ≤ 57)

/-- A hexadecimal digit, either case. -/
def isHex (c : Nat) : Bool := decide ((48 ≤ c ∧ c ≤ 57) ∨ (97 ≤ c ∧ c ≤ 102) ∨ (65 ≤ c ∧ c ≤ 70))

/-- Value of a hexadecimal digit. -/
def hexVal (c : Nat) : Nat := if c ≤ 57 then c - 48 else if c ≤ 70 then c - 55 else c - 87

/-- The scanner inside a string literal, started after the opening quote: the raw text up to
the closing quote and the input after it. Control characters, an unknown escape and a
missing closing quote are errors. -/
def scanString : Nat → GoString → Option (GoString × GoString)
  | 0, _ => none
  | _, [] => none
  | fuel + 1, c :: rest =>
    if c = 34 then some ([], rest)
    else if c = 92 then
      match rest with
      | [] => none
      | e :: rest1 =>
        if e = 117 then
          match rest1 with
          | h1 :: h2 :: h3 :: h4 :: rest2 =>
            if isHex h1 ∧ isHex h2 ∧ isHex h3 ∧ isHex h4 then
              (scanString fuel rest2).map fun p => (92 :: 117 :: h1 :: h2 :: h3 :: h4 :: p.1, p.2)
            else none
          | _ => none
        else if e = 34 ∨ e = 92 ∨ e = 47 ∨ e = 98 ∨ e = 102 ∨ e = 110 ∨ e = 114 ∨ e = 116 then
          (scanString fuel rest1).map fun p => (92 :: e :: p.1, p.2)
        else none
    else if c < 32 then none
    else (scanString fuel rest).map fun p => (c :: p.1, p.2)

/-- Go `getu4`: the code unit written as `\uXXXX` at the head of the input. -/
def getu4 : GoString → Option Nat
  | b :: u :: h1 :: h2 :: h3 :: h4 :: _ =>
    if b = 92 ∧ u = 117 ∧ isHex h1 ∧ isHex h2 ∧ isHex h3 ∧ isHex h4 then
      some (hexVal h1 * 4096 + hexVal h2 * 256 + hexVal h3 * 16 + hexVal h4)
    else none
  | _ => none

/-- Go `unquoteBytes` on the text between the quotes: escapes are resolved, a surrogate pair
becomes one code point, a lone surrogate and every malformed byte become U+FFFD. -/
def unquoteAux : Nat → GoString → Option GoString
  | _, [] => some []
  | 0, _ :: _ => none
  | fuel + 1, c :: rest =>
    if c = 92 then
      match rest with
      | [] => none
      | e :: rest1 =>
        if e = 117 then
          match getu4 (c :: rest) with
          | none => none
          | some rr =>
            if 0xD800 ≤ rr ∧ rr < 0xE000 then
              match getu4 (rest1.drop 4) with
              | some rr1 =>
                if rr < 0xDC00 ∧ 0xDC00 ≤ rr1 ∧ rr1 < 0xE000 then
                  (unquoteAux fuel (rest1.drop 10)).map fun t =>
                    encodeRune ((rr - 0xD800) * 1024 + (rr1 - 0xDC00) + 0x10000) ++ t
                else (unquoteAux fuel (rest1.drop 4)).map fun t => encodeRune 0xFFFD ++ t
              | none => (unquoteAux fuel (rest1.drop 4)).map fun t => encodeRune 0xFFFD ++ t
            else (unquoteAux fuel (rest1.drop 4)).map fun t => encodeRune rr ++ t
        else if e = 34 ∨ e = 92 ∨ e = 47 ∨ e = 39 then (unquoteAux fuel rest1).map fun t => e :: t
        else if e = 98 then (unquoteAux fuel rest1).map fun t => 8 :: t
        else if e = 102 then (unquoteAux fuel rest1).map fun t => 12 :: t
        else if e = 110 then (unquoteAux fuel rest1).map fun t => 10 :: t
        else if e = 114 then (unquoteAux fuel rest1).map fun t => 13 :: t
        else if e = 116 then (unquoteAux fuel rest1).map fun t => 9 :: t
        else none
    else if c = 34 ∨ c < 32 then none
    else if c < 0x80 then (unquoteAux fuel rest).map fun t => c :: t
    else
      let d := decodeRune (c :: rest)
      (unquoteAux fuel (rest.drop (d.2 - 1))).map fun t => encodeRune d.1 ++ t

/-- The Go string denoted by the raw text of a JSON string literal. -/
def unquote (raw : GoString) : Option GoString := unquoteAux raw.length raw

/-- States of the scanner inside a number literal. -/
inductive NumState where
  | start | neg | zero | int | dot | frac | exp | expSign | expDigits
  deriving DecidableEq, Repr

/-- A number may end in this state. -/
def NumState.accepting : NumState → Bool
  | .zero | .int | .frac | .expDigits => true
  | _ => false

/-- One step of the number grammar `-? (0 | [1-9][0-9]*) (. [0-9]+)? ([eE] [+-]? [0-9]+)?`. -/
def NumState.step (s : NumState) (c : Nat) : Option NumState :=
  match s with
  | .start => if c = 45 then some .neg else if c = 48 then some .zero
      else if isDigit c then some .int else none
  | .neg => if c = 48 then some .zero else if isDigit c then some .int else none
  | .zero => if c = 46 then some .dot else if c = 101 ∨ c = 69 then some .exp else none
  | .int => if isDigit c then some .int else if c = 46 then some .dot
      else if c = 101 ∨ c = 69 then some .exp else none
  | .dot => if isDigit c then some .frac else none
  | .frac => if isDigit c then some .frac else if c = 101 ∨ c = 69 then some .exp else none
  | .exp => if c = 43 ∨ c = 45 then some .expSign else if isDigit c then some .expDigits else none
  | .expSign => if isDigit c then some .expDigits else none
  | .expDigits => if isDigit c then some .expDigits else none

/-- The scanner inside a number literal: the longest literal at the head of the input and the
input after it. -/
def scanNumber : NumState → GoString → Option (GoString × GoString)
  | s, [] => if s.accepting then some ([], []) else none
  | s, c :: rest =>
    match s.step c with
    | some s1 => (scanNumber s1 rest).map fun p => (c :: p.1, p.2)
    | none => if s.accepting then some ([], c :: rest) else none

/-- A JSON value. A number keeps its literal text, a string is already unquoted. -/
inductive JSON where
  | null
  | bool (b : Bool)
  | num (lit : GoString)
  | str (s : GoString)
  | arr (elems : List JSON)
  | obj (members : List (GoString × JSON))

/-- The scanner's `maxNestingDepth`. -/
def maxNestingDepth : Nat := 10000

/-- Remove the literal `l` from the head of the input. -/
def dropLit : GoString → GoString → Option GoString
  | [], input => some input
  | _ :: _, [] => none
  | a :: l, c :: input => if a = c then dropLit l input else none

mutual
/-- One JSON value at the head of the input, after optional whitespace, and the input after
it. `depth` is the number of arrays and objects that are open. -/
def parseValue : Nat → Nat → GoString → Option (JSON × GoString)
  | 0, _, _ => none
  | fuel + 1, depth, input =>
    match skipWS input with
    | [] => none
    | c :: rest =>
      if c = 34 then
        match scanString rest.length rest with
        | none => none
        | some (raw, rest1) => (unquote raw).map fun s => (.str s, rest1)
      else if c = 91 then
        if maxNestingDepth ≤ depth then none
        else match skipWS rest with
          | [] => none
          | c1 :: rest1 =>
            if c1 = 93 then some (.arr [], rest1)
            else (parseElems fuel (depth + 1) (c1 :: rest1)).map fun p => (.arr p.1, p.2)
      else if c = 123 then
        if maxNestingDepth ≤ depth then none
        else match skipWS rest with
          | [] => none
          | c1 :: rest1 =>
            if c1 = 125 then some (.obj [], rest1)
            else (parseMembers fuel (depth + 1) (c1 :: rest1)).map fun p => (.obj p.1, p.2)
      else if c = 45 ∨ isDigit c then
        (scanNumber .start (c :: rest)).map fun p => (.num p.1, p.2)
      else if c = 110 then (dropLit (bytesOf "ull") rest).map fun r => (.null, r)
      else if c = 116 then (dropLit (bytesOf "rue") rest).map fun r => (.bool true, r)
      else if c = 102 then (dropLit (bytesOf "alse") rest).map fun r => (.bool false, r)
      else none
/-- The elements of a non-empty array up to and including the closing bracket. -/
def parseElems : Nat → Nat → GoString → Option (List JSON × GoString)
  | 0, _, _ => none
  | fuel + 1, depth, input =>
    match parseValue fuel depth input with
    | none => none
    | some (v, rest) =>
      match skipWS rest with
      | [] => none
      | c :: rest1 =>
        if c = 44 then (parseElems fuel depth rest1).map fun p => (v :: p.1, p.2)
        else if c = 93 then some ([v], rest1)
        else none
/-- The members of a non-empty object up to and including the closing brace. -/
def parseMembers : Nat → Nat → GoString → Option (List (GoString × JSON) × GoString)
  | 0, _, _ => none
  | fuel + 1, depth, input =>
    match skipWS input with
    | [] => none
    | q :: rest =>
      if q = 34 then
        match scanString rest.length rest with
        | none => none
        | some (raw, rest1) =>
          match unquote raw with
          | none => none
          | some key =>
            match skipWS rest1 with
            | [] => none
            | colon :: rest2 =>
              if colon = 58 then
                match parseValue fuel depth rest2 with
                | none => none
                | some (v, rest3) =>
                  match skipWS rest3 with
                  | [] => none
                  | c :: rest4 =>
                    if c = 44 then
                      (parseMembers fuel depth rest4).map fun p => ((key, v) :: p.1, p.2)
                    else if c = 125 then some ([(key, v)], rest4)
                    else none
              else none
      else none
end

/-- The JSON value of a whole text, if the text is valid JSON (`checkValid` accepts it):
one value, surrounded by optional whitespace. The fuel bounds the chain of nested parser
calls, of which every second one consumes a byte. -/
def parseJSON (data : GoString) : Option JSON :=
  match parseValue (2 * data.length + 2) 0 data with
  | none => none
  | some (v, rest) => if skipWS rest = [] then some v else none

mutual
/-- The text the encoder writes for a value: no whitespace, members in order. -/
def render : JSON → GoString
  | .null => bytesOf "null"
  | .bool true => bytesOf "true"
  | .bool false => bytesOf "false"
  | .num lit => lit
  | .str s => appendString s
  | .arr elems => 91 :: renderElems elems ++ [93]
  | .obj members => 123 :: renderMembers members ++ [125]
/-- Elements separated by commas. -/
def renderElems : List JSON → GoString
  | [] => []
  | [v] => render v
  | v :: w :: rest => render v ++ 44 :: renderElems (w :: rest)
/-- Members `"key":value` separated by commas. -/
def renderMembers : List (GoString × JSON) → GoString
  | [] => []
  | [(k, v)] => appendString k ++ 58 :: render v
  | (k, v) :: m :: rest => appendString k ++ 58 :: render v ++ 44 :: renderMembers (m :: rest)
end

/-! ## encoding/json: decoding into Go values

`json.Unmarshal` first checks that the whole input is a JSON text, then stores the value.
A value that does not fit is recorded as an error and skipped, and decoding continues; the
first recorded error is returned at the end. `null` sets a slice to nil and leaves every other
kind of value untouched. Object keys are matched with the field tags exactly or, failing
that, under Unicode simple case folding; members with other keys are skipped. -/

/-- The range of a Go `int` (64 bits). -/
def isInt64 (n : Int) : Prop := -9223372036854775808 ≤ n ∧ n < 9223372036854775808

instance (n : Int) : Decidable (isInt64 n) := by unfold isInt64; infer_instance

/-- Value of a string of decimal digits, continuing from `acc`. -/
def parseDigits : GoString → Nat → Option Nat
  | [], acc => some acc
  | c :: rest, acc => if isDigit c then parseDigits rest (acc * 10 + (c - 48)) else none

/-- Go `strconv.ParseInt(lit, 10, 64)` without the range check: an optional sign and at
least one decimal digit. -/
def parseIntLit : GoString → Option Int
  | [] => none
  | c :: rest =>
    if c = 45 then
      if rest = [] then none else (parseDigits rest 0).map fun n => -(n : Int)
    else if c = 43 then
      if rest = [] then none else (parseDigits rest 0).map fun n => (n : Int)
    else (parseDigits (c :: rest) 0).map fun n => (n : Int)

/-- Store a JSON value into an `int`; the flag reports a recorded error. -/
def decodeInt (old : Int) : JSON → Int × Bool
  | .null => (old, false)
  | .num lit =>
    match parseIntLit lit with
    | some n => if isInt64 n then (n, false) else (old, true)
    | none => (old, true)
  | _ => (old, true)

/-- Store a JSON value into a `string`. -/
def decodeString (old : GoString) : JSON → GoString × Bool
  | .null => (old, false)
  | .str s => (s, false)
  | _ => (old, true)

/-- Store a JSON value into a `bool`. -/
def decodeBool (old : Bool) : JSON → Bool × Bool
  | .null => (old, false)
  | .bool b => (b, false)
  | _ => (old, true)

/-- Store a JSON value into a `[]int`. Every element starts from zero; Go reuses the elements
of the old slice instead, which shows only when a key holding an array with `null` elements is
repeated inside one object. -/
def decodeIntSlice (old : Option (List Int)) : JSON → Option (List Int) × Bool
  | .null => (none, false)
  | .arr elems =>
    (some (elems.map fun v => (decodeInt 0 v).1), elems.any fun v => (decodeInt 0 v).2)
  | _ => (old, true)

/-- An ASCII byte `a` of a field name and a code point `r` of a key are equal under Unicode
simple case folding: the two cases of a letter, and the Kelvin sign for `k`, the long s for `s`. -/
def foldsTo (a r : Nat) : Bool :=
  decide (r = a ∨ (97 ≤ a ∧ a ≤ 122 ∧ r + 32 = a) ∨ (65 ≤ a ∧ a ≤ 90 ∧ r = a + 32)
    ∨ ((a = 107 ∨ a = 75) ∧ r = 0x212A) ∨ ((a = 115 ∨ a = 83) ∧ r = 0x17F))

/-- Go `bytes.EqualFold(name, key)` for an ASCII field name. -/
def equalFold : GoString → GoString → Bool
  | [], key => decide (key = [])
  | a :: name, key =>
    let d := decodeRune key
    decide (d.2 ≠ 0) && foldsTo a d.1 && equalFold name (key.drop d.2)

/-- The field a key selects: the one whose tag is the key, else the first one whose tag equals
the key under case folding. -/
def findField (names : List GoString) (key : GoString) : Option Nat :=
  match names.indexOf? key with
  | some i => some i
  | none => names.findIdx? fun n => equalFold n key

/-- Store a JSON value into a struct: the members of an object are stored one after the
other with `setField`, `null` changes nothing, any other value is an error. -/
def decodeStruct {α : Type} (setField : α → GoString → JSON → α × Bool) (old : α) :
    JSON → α × Bool
  | .null => (old, false)
  | .obj members =>
    members.foldl (fun acc m => ((setField acc.1 m.1 m.2).1, acc.2 || (setField acc.1 m.1 m.2).2))
      (old, false)
  | _ => (old, true)

/-- Store a JSON value into a slice of structs declared as a nil variable or a fresh field. -/
def decodeSlice {α : Type} (decodeElem : JSON → α × Bool) (old : Option (List α)) :
    JSON → Option (List α) × Bool
  | .null => (none, false)
  | .arr elems => (some (elems.map fun v => (decodeElem v).1), elems.any fun v => (decodeElem v).2)
  | _ => (old, true)

/-- Go `json.Unmarshal(data, &x)` for a variable `x` holding `old`, given how a JSON value is
stored into the type of `x`: the new value of `x` and the error. -/
def Unmarshal {α : Type} (store : α → JSON → α × Bool) (data : GoString) (old : α) :
    α × Option GoError :=
  match parseJSON data with
  | none => (old, some .jsonMalformed)
  | some v => ((store old v).1, if (store old v).2 then some .jsonMismatch else none)

/-- The JSON value the encoder writes for a `[]int`. -/
def encodeIntSlice : Option (List Int) → JSON
  | none => .null
  | some xs => .arr (xs.map fun n => .num (fmtInt n))

/-- The JSON value the encoder writes for a slice of structs. -/
def encodeSlice {α : Type} (encodeElem : α → JSON) : Option (List α) → JSON
  | none => .null
  | some xs => .arr (xs.map encodeElem)

/-! ## The package `todoist` -/

/-- The constant `restProjects`. -/
def restProjects : GoString := bytesOf "https://api.todoist.com/rest/v1/projects"

/-- The constant `restTasks`. -/
def restTasks : GoString := bytesOf "https://api.todoist.com/rest/v1/tasks"

/-- The constant `restAuth`. -/
def restAuth : GoString := bytesOf "https://todoist.com/oauth/authorize"

/-- The constant `http.MethodGet`. -/
def MethodGet : GoString := bytesOf "GET"

/-- The constant `http.StatusOK`. -/
def StatusOK : Int := 200

/-- A `context.Context` as far as this package and the transport can tell contexts apart. -/
inductive Context where
  | nil
  | ctx (id : Nat)
  deriving DecidableEq, Repr

/-- Go `context.Background()`. -/
def Context.Background : Context := .ctx 0

/-- A `http.Header`: keys with their values, in order of insertion. -/
abbrev Header := List (GoString × List GoString)

/-- Go `Header.Add` for a key that is already in canonical form. -/
def Header.Add (h : Header) (key value : GoString) : Header :=
  if h.any (fun kv => decide (kv.1 = key)) then
    h.map fun kv => if kv.1 = key then (kv.1, kv.2 ++ [value]) else kv
  else h ++ [(key, [value])]

/-- Go `Header.Values`. -/
def Header.Values (h : Header) (key : GoString) : List GoString :=
  (h.filter fun kv => decide (kv.1 = key)).flatMap fun kv => kv.2

/-- The fields of a `http.Request` that this package sets. -/
structure Request where
  ctx : Context
  Method : GoString
  URL : GoString
  Header : Header
  Body : Option GoString
  deriving DecidableEq, Repr

/-- A response body: what `ioutil.ReadAll` returns for it, the bytes read and the error that
stopped the reading, if any. -/
structure ReadCloser where
  data : GoString
  err : Option GoError
  deriving DecidableEq, Repr

/-- The fields of a `http.Response` that this package reads. -/
structure Response where
  StatusCode : Int
  Body : ReadCloser
  deriving DecidableEq, Repr

/-- A `http.RoundTripper` together with what `http.Client` does around it (redirects,
cookies, the timeout): the final response or the error that `Do` returns for a request. -/
abbrev RoundTripper := Request → Except GoError Response

/-- The standard library and the world outside the program. -/
structure Lib where
  /-- The error with which `http.NewRequestWithContext` rejects a context, method and URL
  (nil context, invalid method, URL that does not parse), if it does. -/
  newRequestError : Context → GoString → GoString → Option GoError
  /-- The network behind `http.DefaultTransport`. -/
  DefaultTransport : RoundTripper
  /-- Go `time.Parse(time.RFC3339, s)`: the instant, or `none` when it returns an error. -/
  timeParse : GoString → Option Int

/-- Go `http.NewRequestWithContext`: a request with an empty header. -/
def NewRequestWithContext (lib : Lib) (ctx : Context) (method url : GoString)
    (body : Option GoString) : Except GoError Request :=
  match lib.newRequestError ctx method url with
  | some err => .error err
  | none => .ok ⟨ctx, if method = [] then MethodGet else method, url, [], body⟩

/-- Go `ioutil.ReadAll`: always a non-nil slice, and the error of the reader. -/
def ReadAll (r : ReadCloser) : GoString × Option GoError := (r.data, r.err)

/-- A `http.Client`: the timeout in nanoseconds and the transport, `none` for the default. -/
structure HTTPClient where
  Timeout : Nat
  Transport : Option RoundTripper

/-- Go `http.Client.Do`: the answer of the client's transport. -/
def HTTPClient.Do (lib : Lib) (c : HTTPClient) (req : Request) : Except GoError Response :=
  match c.Transport with
  | some rt => rt req
  | none => lib.DefaultTransport req

/-- The struct `Client`. -/
structure Client where
  client : HTTPClient
  clientID : GoString
  clientSecret : GoString

/-- The struct `Project`, fields in the order of the source. -/
structure Project where
  ID : Int
  Color : Int
  Order : Int
  Name : GoString
  CommentCount : Int
  Shared : Bool
  Favorite : Bool
  SyncId : Int
  InboxProject : Bool
  Url : GoString
  deriving DecidableEq, Repr

/-- The struct `DueObject`. -/
structure DueObject where
  String : GoString
  Date : GoString
  Recurring : Bool
  Datetime : GoString
  Timezone : GoString
  deriving DecidableEq, Repr

/-- The struct `Task`. A nil `LabelIDs` is `none`. -/
structure Task where
  ID : Int
  ProjectID : Int
  SectionID : Int
  Content : GoString
  Description : GoString
  Completed : Bool
  LabelIDs : Option (List Int)
  ParentID : Int
  Order : Int
  Priority : Int
  Due : DueObject
  Url : GoString
  CommentCount : Int
  Assignee : Int
  deriving DecidableEq, Repr

/-- The zero value of `Project`. -/
def Project.zero : Project := ⟨0, 0, 0, [], 0, false, false, 0, false, []⟩

/-- The zero value of `DueObject`. -/
def DueObject.zero : DueObject := ⟨[], [], false, [], []⟩

/-- The zero value of `Task`. -/
def Task.zero : Task := ⟨0, 0, 0, [], [], false, none, 0, 0, 0, DueObject.zero, [], 0, 0⟩

/-- The `json` tags of `Project`, in field order. -/
def Project.tags : List GoString :=
  [bytesOf "id", bytesOf "color", bytesOf "order", bytesOf "name", bytesOf "comment_count",
   bytesOf "shared", bytesOf "favourite", bytesOf "sync_id", bytesOf "inbox_project",
   bytesOf "url"]

/-- The `json` tags of `DueObject`, in field order. -/
def DueObject.tags : List GoString :=
  [bytesOf "string", bytesOf "date", bytesOf "recurring", bytesOf "datetime",
   bytesOf "timezone"]

/-- The `json` tags of `Task`, in field order. -/
def Task.tags : List GoString :=
  [bytesOf "id", bytesOf "project_id", bytesOf "section_id", bytesOf "content",
   bytesOf "description", bytesOf "completed", bytesOf "label_ids", bytesOf "parent_id",
   bytesOf "order", bytesOf "priority", bytesOf "due", bytesOf "url",
   bytesOf "comment_count", bytesOf "assignee"]

/-- The JSON object `json.Marshal` writes for a `Project`. -/
def Project.toJSON (p : Project) : JSON :=
  .obj [(bytesOf "id", .num (fmtInt p.ID)), (bytesOf "color", .num (fmtInt p.Color)),
    (bytesOf "order", .num (fmtInt p.Order)), (bytesOf "name", .str p.Name),
    (bytesOf "comment_count", .num (fmtInt p.CommentCount)), (bytesOf "shared", .bool p.Shared),
    (bytesOf "favourite", .bool p.Favorite), (bytesOf "sync_id", .num (fmtInt p.SyncId)),
    (bytesOf "inbox_project", .bool p.InboxProject), (bytesOf "url", .str p.Url)]

/-- The JSON object `json.Marshal` writes for a `DueObject`. -/
def DueObject.toJSON (d : DueObject) : JSON :=
  .obj [(bytesOf "string", .str d.String), (bytesOf "date", .str d.Date),
    (bytesOf "recurring", .bool d.Recurring), (bytesOf "datetime", .str d.Datetime),
    (bytesOf "timezone", .str d.Timezone)]

/-- The JSON object `json.Marshal` writes for a `Task`. -/
def Task.toJSON (t : Task) : JSON :=
  .obj [(bytesOf "id", .num (fmtInt t.ID)), (bytesOf "project_id", .num (fmtInt t.ProjectID)),
    (bytesOf "section_id", .num (fmtInt t.SectionID)), (bytesOf "content", .str t.Content),
    (bytesOf "description", .str t.Description), (bytesOf "completed", .bool t.Completed),
    (bytesOf "label_ids", encodeIntSlice t.LabelIDs),
    (bytesOf "parent_id", .num (fmtInt t.ParentID)), (bytesOf "order", .num (fmtInt t.Order)),
    (bytesOf "priority", .num (fmtInt t.Priority)), (bytesOf "due", t.Due.toJSON),
    (bytesOf "url", .str t.Url), (bytesOf "comment_count", .num (fmtInt t.CommentCount)),
    (bytesOf "assignee", .num (fmtInt t.Assignee))]

/-- Go `json.Marshal` on a `[]Project`. -/
def MarshalProjects (ps : Option (List Project)) : GoString :=
  render (encodeSlice Project.toJSON ps)

/-- Go `json.Marshal` on a `[]Task`. -/
def MarshalTasks (ts : Option (List Task)) : GoString :=
  render (encodeSlice Task.toJSON ts)

/-- Store the member `key: v` of a JSON object into a `Project`. -/
def Project.setField (p : Project) (key : GoString) (v : JSON) : Project × Bool :=
  match findField Project.tags key with
  | none => (p, false)
  | some i =>
    if i = 0 then
      ({ p with ID := (decodeInt p.ID v).1 }, (decodeInt p.ID v).2)
    else if i = 1 then
      ({ p with Color := (decodeInt p.Color v).1 }, (decodeInt p.Color v).2)
    else if i = 2 then
      ({ p with Order := (decodeInt p.Order v).1 }, (decodeInt p.Order v).2)
    else if i = 3 then
      ({ p with Name := (decodeString p.Name v).1 }, (decodeString p.Name v).2)
    else if i = 4 then
      ({ p with CommentCount := (decodeInt p.CommentCount v).1 }, (decodeInt p.CommentCount v).2)
    else if i = 5 then
      ({ p with Shared := (decodeBool p.Shared v).1 }, (decodeBool p.Shared v).2)
    else if i = 6 then
      ({ p with Favorite := (decodeBool p.Favorite v).1 }, (decodeBool p.Favorite v).2)
    else if i = 7 then
      ({ p with SyncId := (decodeInt p.SyncId v).1 }, (decodeInt p.SyncId v).2)
    else if i = 8 then
      ({ p with InboxProject := (decodeBool p.InboxProject v).1 }, (decodeBool p.InboxProject v).2)
    else if i = 9 then
      ({ p with Url := (decodeString p.Url v).1 }, (decodeString p.Url v).2)
    else (p, false)

/-- Store the member `key: v` of a JSON object into a `DueObject`. -/
def DueObject.setField (d : DueObject) (key : GoString) (v : JSON) : DueObject × Bool :=
  match findField DueObject.tags key with
  | none => (d, false)
  | some i =>
    if i = 0 then
      ({ d with String := (decodeString d.String v).1 }, (decodeString d.String v).2)
    else if i = 1 then
      ({ d with Date := (decodeString d.Date v).1 }, (decodeString d.Date v).2)
    else if i = 2 then
      ({ d with Recurring := (decodeBool d.Recurring v).1 }, (decodeBool d.Recurring v).2)
    else if i = 3 then
      ({ d with Datetime := (decodeString d.Datetime v).1 }, (decodeString d.Datetime v).2)
    else if i = 4 then
      ({ d with Timezone := (decodeString d.Timezone v).1 }, (decodeString d.Timezone v).2)
    else (d, false)

/-- Store the member `key: v` of a JSON object into a `Task`. -/
def Task.setField (t : Task) (key : GoString) (v : JSON) : Task × Bool :=
  match findField Task.tags key with
  | none => (t, false)
  | some i =>
    if i = 0 then
      ({ t with ID := (decodeInt t.ID v).1 }, (decodeInt t.ID v).2)
    else if i = 1 then
      ({ t with ProjectID := (decodeInt t.ProjectID v).1 }, (decodeInt t.ProjectID v).2)
    else if i = 2 then
      ({ t with SectionID := (decodeInt t.SectionID v).1 }, (decodeInt t.SectionID v).2)
    else if i = 3 then
      ({ t with Content := (decodeString t.Content v).1 }, (decodeString t.Content v).2)
    else if i = 4 then
      ({ t with Description := (decodeString t.Description v).1 }, (decodeString t.Description v).2)
    else if i = 5 then
      ({ t with Completed := (decodeBool t.Completed v).1 }, (decodeBool t.Completed v).2)
    else if i = 6 then
      ({ t with LabelIDs := (decodeIntSlice t.LabelIDs v).1 }, (decodeIntSlice t.LabelIDs v).2)
    else if i = 7 then
      ({ t with ParentID := (decodeInt t.ParentID v).1 }, (decodeInt t.ParentID v).2)
    else if i = 8 then
      ({ t with Order := (decodeInt t.Order v).1 }, (decodeInt t.Order v).2)
    else if i = 9 then
      ({ t with Priority := (decodeInt t.Priority v).1 }, (decodeInt t.Priority v).2)
    else if i = 10 then
      ({ t with Due := (decodeStruct DueObject.setField t.Due v).1 },
      (decodeStruct DueObject.setField t.Due v).2)
    else if i = 11 then
      ({ t with Url := (decodeString t.Url v).1 }, (decodeString t.Url v).2)
    else if i = 12 then
      ({ t with CommentCount := (decodeInt t.CommentCount v).1 }, (decodeInt t.CommentCount v).2)
    else if i = 13 then
      ({ t with Assignee := (decodeInt t.Assignee v).1 }, (decodeInt t.Assignee v).2)
    else (t, false)

/-- Go `json.Unmarshal(data, &projects)` for `var projects []Project`. -/
def UnmarshalProjects (data : GoString) (old : Option (List Project)) :
    Option (List Project) × Option GoError :=
  Unmarshal (decodeSlice (decodeStruct Project.setField Project.zero)) data old

/-- Go `json.Unmarshal(data, &tasks)` for `var tasks []Task`. -/
def UnmarshalTasks (data : GoString) (old : Option (List Task)) :
    Option (List Task) × Option GoError :=
  Unmarshal (decodeSlice (decodeStruct Task.setField Task.zero)) data old

/-- What a call of the package did and returned: the requests handed to `c.client.Do`, the
returned value (`none` for nil) and the returned error (`none` for nil). -/
structure Result (α : Type) where
  sent : List Request
  val : Option α
  err : Option GoError

/-- The function `NewClient`: the returned client and error. The new `http.Client` has a
timeout of five seconds and no transport of its own, so `Do` goes to the default transport. -/
def NewClient (clientID clientSecret : GoString) : Option Client × Option GoError :=
  if clientID = [] then (none, some (.errorsNew (bytesOf "consumer key is empty")))
  else if clientSecret = [] then (none, some (.errorsNew (bytesOf "consumer key is empty")))
  else (some ⟨⟨5 * 1000000000, none⟩, clientID, clientSecret⟩, none)

/-- The method `Client.doHTTP`. -/
def doHTTP (lib : Lib) (c : Client) (ctx : Context) (accessToken method endpoint : GoString)
    (body : Option GoString) : Result GoString :=
  match NewRequestWithContext lib ctx method endpoint body with
  | .error err => ⟨[], none, some (.wrap (bytesOf "DoHTTP invalid: ") err)⟩
  | .ok req0 =>
    let bearer := bytesOf "Bearer " ++ accessToken
    let req := { req0 with Header := req0.Header.Add (bytesOf "Authorization") bearer }
    match c.client.Do lib req with
    | .error err => ⟨[req], none, some (.wrap (bytesOf "failed to send http request: ") err)⟩
    | .ok resp =>
      if resp.StatusCode ≠ StatusOK then
        ⟨[req], none, some (Errorf (bytesOf "API Error: got %d") [.int resp.StatusCode])⟩
      else
        match ReadAll resp.Body with
        | (_, some err) =>
          ⟨[req], none, some (.wrap (bytesOf "failed to read request body: ") err)⟩
        | (respB, none) => ⟨[req], some respB, none⟩

/-- The method `Client.GetAuthorizationRequestURL`. -/
def GetAuthorizationRequestURL (c : Client) (_ctx : Context) : GoString :=
  Sprintf (bytesOf "%s?client_id=%s&scope=%s&state=%s")
    [.str restAuth, .str c.clientID, .str (bytesOf "data:read"), .str (bytesOf "state")]

/-- The method `Client.GetProjects`. -/
def GetProjects (lib : Lib) (c : Client) (ctx : Context) (accessToken : GoString) :
    Result (List Project) :=
  let r := doHTTP lib c ctx accessToken MethodGet restProjects none
  match r.err with
  | some err => ⟨r.sent, none, some err⟩
  | none =>
    match UnmarshalProjects (r.val.getD []) none with
    | (_, some err) => ⟨r.sent, none, some (.wrap (bytesOf "unable to decode json response: ") err)⟩
    | (projects, none) => ⟨r.sent, projects, none⟩

/-- The method `Client.GetTasksWithParams`. -/
def GetTasksWithParams (lib : Lib) (c : Client) (ctx : Context) (accessToken paramStr : GoString) :
    Result (List Task) :=
  let r := doHTTP lib c ctx accessToken MethodGet (restTasks ++ paramStr) none
  match r.err with
  | some err => ⟨r.sent, none, some err⟩
  | none =>
    match UnmarshalTasks (r.val.getD []) none with
    | (_, some err) => ⟨r.sent, none, some (.wrap (bytesOf "unable to decode json response: ") err)⟩
    | (tasks, none) => ⟨r.sent, tasks, none⟩

/-- The method `Client.GetTasks`. -/
def GetTasks (lib : Lib) (c : Client) (ctx : Context) (accessToken : GoString) :
    Result (List Task) :=
  GetTasksWithParams lib c ctx accessToken []

/-- The method `Client.GetTasksByProject`. -/
def GetTasksByProject (lib : Lib) (c : Client) (ctx : Context) (accessToken : GoString)
    (projectID : Int) : Result (List Task) :=
  let params := Sprintf (bytesOf "?project_id=%d") [.int projectID]
  GetTasksWithParams lib c ctx accessToken params

/-! ## Test helpers (`todoist_test.go`) -/

/-- The helper `newClient`: a client whose transport answers every request with the given
status code and body. -/
def newClient (statusCode : Int) (response : GoString) : Client :=
  ⟨⟨0, some fun _ => .ok ⟨statusCode, ⟨response, none⟩⟩⟩, bytesOf "clientID", bytesOf "clientSecret"⟩

/-- The helper `createMockTasks`. -/
def createMockTasks (num : Nat) : GoString :=
  MarshalTasks (some ((List.range num).map fun i =>
    { Task.zero with
      ID := i, ProjectID := i, Content := Sprintf (bytesOf "SomeContent%d") [.int i] }))

/-- The helper `createMockProjects`. -/
def createMockProjects (num : Nat) : GoString :=
  MarshalProjects (some ((List.range num).map fun i =>
    { Project.zero with ID := i, Name := Sprintf (bytesOf "SomeContent%d") [.int i] }))

/-! ## The example driver (`cmd/main.go`) -/

/-- A line written to standard output by the task loop. -/
inductive Line where
  /-- The line `Can't cast to time - <content>`. -/
  | cantCast (content : GoString)
  /-- The line with the index, content, project id, due instant and minutes until then. -/
  | due (i : Nat) (content : GoString) (projectID : Int) (ddt : Int)
  deriving DecidableEq, Repr

/-- What the task loop did: the strings handed to `time.Parse` and the lines printed. -/
structure Trace where
  parsed : List GoString
  printed : List Line
  deriving DecidableEq, Repr

/-- One iteration of `for i, t := range tasks` in `main`. -/
def taskStep (lib : Lib) (i : Nat) (t : Task) : Trace :=
  if t.Due.Datetime = [] then ⟨[], []⟩
  else
    match lib.timeParse t.Due.Datetime with
    | none => ⟨[t.Due.Datetime], [.cantCast t.Content]⟩
    | some ddt => ⟨[t.Due.Datetime], [.due i t.Content t.ProjectID ddt]⟩

/-- The loop `for i, t := range tasks` in `main`, started at index `i`. -/
def taskLoop (lib : Lib) : Nat → List Task → Trace
  | _, [] => ⟨[], []⟩
  | i, t :: rest =>
    ⟨(taskStep lib i t).parsed ++ (taskLoop lib (i + 1) rest).parsed,
     (taskStep lib i t).printed ++ (taskLoop lib (i + 1) rest).printed⟩

/-- What `main` writes to standard output. -/
inductive Out where
  /-- The line `Got error while creating client: <err>`. -/
  | clientError (err : GoError)
  /-- The line `Couldn't get projects, error = <err>`. -/
  | projectsError (err : GoError)
  /-- The line `<i>: <name> (<id>), inbox = <inbox>`. -/
  | project (i : Nat) (name : GoString) (id : Int) (inbox : Bool)
  /-- The empty line of `fmt.Println()`. -/
  | blank
  /-- The text `Inbox project not found`. -/
  | inboxNotFound
  /-- The line `Couldn't get tasks, error = <err>`. -/
  | tasksError (err : GoError)
  /-- A line of the task loop. -/
  | task (l : Line)
  deriving DecidableEq, Repr

/-- The loop `Find inbox project` of `main`: the id of the last project flagged as inbox,
`-1` when there is none. -/
def findInbox (projects : List Project) : Int :=
  projects.foldl (fun inboxID p => if p.InboxProject then p.ID else inboxID) (-1)

/-- The function `main` of the example driver: its output. -/
def main (lib : Lib) : List Out :=
  match NewClient (bytesOf "<clientID here>") (bytesOf "<clientSecret goes here>") with
  | (_, some err) => [.clientError err]
  | (none, none) => []
  | (some client, none) =>
    let accessToken := bytesOf "<accessToken for specific client here>"
    let r := GetProjects lib client .Background accessToken
    let projects := r.val.getD []
    let head := (match r.err with
        | some err => [Out.projectsError err]
        | none => [])
      ++ (projects.enum.map fun ip => Out.project ip.1 ip.2.Name ip.2.ID ip.2.InboxProject)
      ++ [Out.blank]
    let inboxID := findInbox projects
    if inboxID = -1 then head ++ [.inboxNotFound]
    else
      let r2 := GetTasksByProject lib client .Background accessToken inboxID
      match r2.err with
      | some err => head ++ [.tasksError err]
      | none => head ++ (taskLoop lib 0 (r2.val.getD [])).printed.map Out.task

/-- An environment for examples: every request can be built, there is no network behind the
default transport, and no string parses as a time. -/
def offline : Lib := ⟨fun _ _ _ => none, fun _ => .error (.ext 0), fun _ => none⟩

end Todoist

namespace Todoist

/-! ## Auxiliary notions for the JSON round trip -/

/-- The text the encoder writes for one scalar value inside a string literal. -/
def quoteRune (r : Nat) : GoString :=
  if r < 0x80 then
    if htmlSafe r then [r]
    else if r = 92 ∨ r = 34 then [92, r]
    else if r = 10 then [92, 110]
    else if r = 13 then [92, 114]
    else if r = 9 then [92, 116]
    else [92, 117, 48, 48, hexDigit (r / 16), hexDigit (r % 16)]
  else if r = 0x2028 ∨ r = 0x2029 then [92, 117, 50, 48, 50, hexDigit (r % 16)]
  else encodeRune r

end Todoist

namespace Todoist

/-- The input after a number literal does not continue the literal. -/
def numStop : GoString → Bool
  | [] => true
  | c :: _ => !isDigit c && decide (c ≠ 46) && decide (c ≠ 101) && decide (c ≠ 69)

end Todoist

namespace Todoist

mutual
/-- Number of parser calls a value needs. -/
def JSON.size : JSON → Nat
  | .arr elems => 1 + sizeElems elems
  | .obj members => 1 + sizeMembers members
  | _ => 1
/-- Number of parser calls the elements of an array need. -/
def sizeElems : List JSON → Nat
  | [] => 0
  | v :: rest => 1 + v.size + sizeElems rest
/-- Number of parser calls the members of an object need. -/
def sizeMembers : List (GoString × JSON) → Nat
  | [] => 0
  | (_, v) :: rest => 1 + v.size + sizeMembers rest
end

mutual
/-- Nesting depth of arrays and objects in a value. -/
def JSON.height : JSON → Nat
  | .arr elems => 1 + heightElems elems
  | .obj members => 1 + heightMembers members
  | _ => 0
/-- Largest nesting depth among the elements. -/
def heightElems : List JSON → Nat
  | [] => 0
  | v :: rest => max v.height (heightElems rest)
/-- Largest nesting depth among the members. -/
def heightMembers : List (GoString × JSON) → Nat
  | [] => 0
  | (_, v) :: rest => max v.height (heightMembers rest)
end

mutual
/-- A value as the encoder writes it for the records of this package: numbers are decimal
integers, strings and keys are well-formed UTF-8. -/
def JSON.Plain : JSON → Prop
  | .null => True
  | .bool _ => True
  | .num lit => ∃ n : Int, lit = fmtInt n
  | .str s => ValidUTF8 s
  | .arr elems => PlainElems elems
  | .obj members => PlainMembers members
/-- All elements are plain. -/
def PlainElems : List JSON → Prop
  | [] => True
  | v :: rest => v.Plain ∧ PlainElems rest
/-- All keys are well-formed UTF-8 and all values plain. -/
def PlainMembers : List (GoString × JSON) → Prop
  | [] => True
  | (k, v) :: rest => ValidUTF8 k ∧ v.Plain ∧ PlainMembers rest
end

end Todoist

namespace Todoist

/-- The integer fields of a project are Go `int` values. -/
def Project.InRange (p : Project) : Prop :=
  isInt64 p.ID ∧ isInt64 p.Color ∧ isInt64 p.Order ∧ isInt64 p.CommentCount ∧ isInt64 p.SyncId

/-- The string fields of a project are well-formed UTF-8
(`utf8.ValidString`). -/
def Project.ValidText (p : Project) : Prop :=
  validString p.Name = true ∧ validString p.Url = true

/-- The string fields of a due object are well-formed UTF-8
(`utf8.ValidString`). -/
def DueObject.ValidText (d : DueObject) : Prop :=
  validString d.String = true ∧ validString d.Date = true ∧ validString d.Datetime = true ∧
  validString d.Timezone = true

/-- The integer fields of a task and its label ids are Go `int` values. -/
def Task.InRange (t : Task) : Prop :=
  isInt64 t.ID ∧ isInt64 t.ProjectID ∧ isInt64 t.SectionID ∧ isInt64 t.ParentID ∧
  isInt64 t.Order ∧ isInt64 t.Priority ∧ isInt64 t.CommentCount ∧ isInt64 t.Assignee ∧
  ∀ n ∈ t.LabelIDs.getD [], isInt64 n

/-- The string fields of a task and of its due object are well-formed UTF-8
(`utf8.ValidString`). -/
def Task.ValidText (t : Task) : Prop :=
  validString t.Content = true ∧ validString t.Description = true ∧ validString t.Url = true ∧
  t.Due.ValidText

instance (p : Project) : Decidable p.InRange := by unfold Project.InRange; infer_instance

instance (p : Project) : Decidable p.ValidText := by unfold Project.ValidText; infer_instance

instance (d : DueObject) : Decidable d.ValidText := by unfold DueObject.ValidText; infer_instance

instance (t : Task) : Decidable t.InRange := by unfold Task.InRange; infer_instance

instance (t : Task) : Decidable t.ValidText := by unfold Task.ValidText; infer_instance

end Todoist

namespace Todoist

/-! ## The shape of a response body, in the words of the data model

A body has the expected shape when it is a JSON text whose value is `null` or an array; each
element is `null` or an object; and each member whose key selects a field holds `null` or a
value of the JSON kind of that field. Members with other keys, missing fields and repeated
keys do not matter. -/

/-- The value fits an integer field: `null`, or an integer literal in the range of `int`. -/
def fitsInt : JSON → Bool
  | .null => true
  | .num lit =>
    match parseIntLit lit with
    | some n => decide (isInt64 n)
    | none => false
  | _ => false

/-- The value fits a text field: `null` or a string. -/
def fitsString : JSON → Bool
  | .null => true
  | .str _ => true
  | _ => false

/-- The value fits a flag: `null` or a boolean. -/
def fitsBool : JSON → Bool
  | .null => true
  | .bool _ => true
  | _ => false

/-- The value fits a list of ids: `null` or an array of values fitting an integer. -/
def fitsInts : JSON → Bool
  | .null => true
  | .arr elems => elems.all fitsInt
  | _ => false

/-- The value fits a record with the given tags: `null`, or an object in which every member
that selects field `i` holds a value accepted by `fitsField i`. -/
def fitsObject (tags : List GoString) (fitsField : Nat → JSON → Bool) : JSON → Bool
  | .null => true
  | .obj members =>
    members.all fun m =>
      match findField tags m.1 with
      | some i => fitsField i m.2
      | none => true
  | _ => false

/-- The value fits a list of records: `null` or an array of values fitting the record. -/
def fitsSlice (fitsElem : JSON → Bool) : JSON → Bool
  | .null => true
  | .arr elems => elems.all fitsElem
  | _ => false

/-- Kinds of the fields of `Project`, by position: numeric id, color, order, comment count
and sync id; text name and url; flags shared, favourite and inbox. -/
def Project.fitsField (i : Nat) (v : JSON) : Bool :=
  if i = 0 ∨ i = 1 ∨ i = 2 ∨ i = 4 ∨ i = 7 then fitsInt v
  else if i = 3 ∨ i = 9 then fitsString v
  else if i = 5 ∨ i = 6 ∨ i = 8 then fitsBool v
  else true

/-- Kinds of the fields of `DueObject`, by position: the flag recurring, text otherwise. -/
def DueObject.fitsField (i : Nat) (v : JSON) : Bool :=
  if i = 0 ∨ i = 1 ∨ i = 3 ∨ i = 4 then fitsString v
  else if i = 2 then fitsBool v
  else true

/-- Kinds of the fields of `Task`, by position: numeric ids, order, priority and counts; text
content, description and url; the completion flag; the list of label ids; the due object. -/
def Task.fitsField (i : Nat) (v : JSON) : Bool :=
  if i = 0 ∨ i = 1 ∨ i = 2 ∨ i = 7 ∨ i = 8 ∨ i = 9 ∨ i = 12 ∨ i = 13 then fitsInt v
  else if i = 3 ∨ i = 4 ∨ i = 11 then fitsString v
  else if i = 5 then fitsBool v
  else if i = 6 then fitsInts v
  else if i = 10 then fitsObject DueObject.tags DueObject.fitsField v
  else true

/-- The body has the shape of a list of projects. -/
def projectsShape (data : GoString) : Bool :=
  match parseJSON data with
  | some v => fitsSlice (fitsObject Project.tags Project.fitsField) v
  | none => false

/-- The body has the shape of a list of tasks. -/
def tasksShape (data : GoString) : Bool :=
  match parseJSON data with
  | some v => fitsSlice (fitsObject Task.tags Task.fitsField) v
  | none => false

end Todoist

namespace Todoist

/-! ## Formatting lemmas -/

theorem bytesOf_append (a b : String) : bytesOf (a ++ b) = bytesOf a ++ bytesOf b := by
  simp [bytesOf, String.data_append, List.flatMap_append]

theorem encodeRune_digitChar (d : Nat) (h : d < 10) :
    encodeRune (Nat.digitChar d).toNat = [48 + d] := by
  interval_cases d <;> decide

theorem bytesOf_toDigitsCore (fuel n : Nat) (acc : List Char) :
    bytesOf ⟨Nat.toDigitsCore 10 fuel n acc⟩ = fmtNatAux fuel n (bytesOf ⟨acc⟩) := by
  induction fuel generalizing n acc with
  | zero => simp [Nat.toDigitsCore, fmtNatAux]
  | succ fuel ih =>
    simp only [Nat.toDigitsCore, fmtNatAux]
    by_cases h : n < 10
    · have h0 : n / 10 = 0 := by omega
      have h1 : n % 10 = n := by omega
      simp only [h0, h1, h, if_true]
      simp [bytesOf, encodeRune_digitChar n h]
    · have h0 : ¬ (n / 10 = 0) := by omega
      simp only [h0, h, if_false]
      rw [ih]
      have : n % 10 < 10 := by omega
      simp [bytesOf, encodeRune_digitChar _ this]

theorem fmtNat_eq_toString (n : Nat) : fmtNat n = bytesOf (toString n) := by
  show fmtNat n = bytesOf (Nat.repr n)
  simp only [Nat.repr, Nat.toDigits, List.asString, fmtNat]
  rw [bytesOf_toDigitsCore]
  rfl

theorem fmtInt_eq_toString (n : Int) : fmtInt n = bytesOf (toString n) := by
  cases n with
  | ofNat m => exact fmtNat_eq_toString m
  | negSucc m =>
    show 45 :: fmtNat (m + 1) = bytesOf ("-" ++ toString (m + 1))
    rw [bytesOf_append, ← fmtNat_eq_toString]
    rfl

end Todoist

namespace Todoist

/-! ## The client: construction, requests, status and body handling -/

theorem bytesOf_ne_nil_iff (s : String) (h : s.data ≠ []) : bytesOf s ≠ [] := by
  cases hs : s.data with
  | nil => exact absurd hs h
  | cons c cs =>
    simp only [bytesOf, hs, List.flatMap_cons]
    intro hnil
    have : encodeRune c.toNat = [] := (List.append_eq_nil.mp hnil).1
    unfold encodeRune at this
    split_ifs at this

/-- C1: `NewClient` returns an error exactly when the client id or the client secret is empty,
the client is nil whenever there is an error, and with both non-empty it returns a client
(holding the two strings) and a nil error. -/
theorem NewClient_error_iff (clientID clientSecret : GoString) :
    ((NewClient clientID clientSecret).2.isSome = true ↔ (clientID = [] ∨ clientSecret = []))
    ∧ ((NewClient clientID clientSecret).2.isSome = true →
        (NewClient clientID clientSecret).1.isNone = true)
    ∧ (clientID ≠ [] ∧ clientSecret ≠ [] →
        (NewClient clientID clientSecret).2 = none ∧
        ∃ c, (NewClient clientID clientSecret).1 = some c ∧
          c.clientID = clientID ∧ c.clientSecret = clientSecret) := by
  unfold NewClient
  by_cases h1 : clientID = []
  · simp [h1]
  · by_cases h2 : clientSecret = []
    · simp [h1, h2]
    · simp [h1, h2]

/-- C1 at an empty client id, at an empty secret, and at the credentials of the test client. -/
theorem NewClient_error_iff_witness :
    (NewClient [] (bytesOf "clientSecret")).2.isSome = true
    ∧ (NewClient (bytesOf "clientID") []).2.isSome = true
    ∧ (NewClient (bytesOf "clientID") (bytesOf "clientSecret")).2 = none
    ∧ (NewClient (bytesOf "clientID") (bytesOf "clientSecret")).1.isSome = true :=
  ⟨((NewClient_error_iff [] (bytesOf "clientSecret")).1).mpr (Or.inl rfl),
   ((NewClient_error_iff (bytesOf "clientID") [])).1.mpr (Or.inr rfl),
   ((NewClient_error_iff (bytesOf "clientID") (bytesOf "clientSecret")).2.2
      ⟨by decide, by decide⟩).1,
   rfl⟩

theorem doHTTP_of_built (lib : Lib) (c : Client) (ctx : Context)
    (accessToken method endpoint : GoString) (body : Option GoString)
    (h : lib.newRequestError ctx method endpoint = none) :
    doHTTP lib c ctx accessToken method endpoint body =
      (match c.client.Do lib
          ⟨ctx, if method = [] then MethodGet else method, endpoint,
            [(bytesOf "Authorization", [bytesOf "Bearer " ++ accessToken])], body⟩ with
        | .error err =>
          ⟨[⟨ctx, if method = [] then MethodGet else method, endpoint,
              [(bytesOf "Authorization", [bytesOf "Bearer " ++ accessToken])], body⟩],
            none, some (.wrap (bytesOf "failed to send http request: ") err)⟩
        | .ok resp =>
          if resp.StatusCode ≠ StatusOK then
            ⟨[⟨ctx, if method = [] then MethodGet else method, endpoint,
              [(bytesOf "Authorization", [bytesOf "Bearer " ++ accessToken])], body⟩],
              none, some (Errorf (bytesOf "API Error: got %d") [.int resp.StatusCode])⟩
          else
            match ReadAll resp.Body with
            | (_, some err) =>
              ⟨[⟨ctx, if method = [] then MethodGet else method, endpoint,
                [(bytesOf "Authorization", [bytesOf "Bearer " ++ accessToken])], body⟩],
                none, some (.wrap (bytesOf "failed to read request body: ") err)⟩
            | (respB, none) =>
              ⟨[⟨ctx, if method = [] then MethodGet else method, endpoint,
                [(bytesOf "Authorization", [bytesOf "Bearer " ++ accessToken])], body⟩],
                some respB, none⟩) := by
  simp only [doHTTP, NewRequestWithContext, h, Header.Add]
  rfl

theorem doHTTP_of_rejected (lib : Lib) (c : Client) (ctx : Context)
    (accessToken method endpoint : GoString) (body : Option GoString) (e : GoError)
    (h : lib.newRequestError ctx method endpoint = some e) :
    doHTTP lib c ctx accessToken method endpoint body =
      ⟨[], none, some (.wrap (bytesOf "DoHTTP invalid: ") e)⟩ := by
  simp only [doHTTP, NewRequestWithContext, h]

theorem apiError_text (s : Int) :
    Errorf (bytesOf "API Error: got %d") [.int s] =
      .errorf (bytesOf "API Error: got " ++ fmtInt s) := by
  simp [Errorf, Sprintf, bytesOf, encodeRune]

end Todoist

namespace Todoist

theorem GetProjects_sent (lib : Lib) (c : Client) (ctx : Context) (accessToken : GoString) :
    (GetProjects lib c ctx accessToken).sent =
      (doHTTP lib c ctx accessToken MethodGet restProjects none).sent := by
  simp only [GetProjects]
  split
  · rfl
  · split <;> rfl

theorem GetTasksWithParams_sent (lib : Lib) (c : Client) (ctx : Context)
    (accessToken paramStr : GoString) :
    (GetTasksWithParams lib c ctx accessToken paramStr).sent =
      (doHTTP lib c ctx accessToken MethodGet (restTasks ++ paramStr) none).sent := by
  simp only [GetTasksWithParams]
  split
  · rfl
  · split <;> rfl

theorem GetProjects_of_err (lib : Lib) (c : Client) (ctx : Context) (accessToken : GoString)
    (e : GoError) (h : (doHTTP lib c ctx accessToken MethodGet restProjects none).err = some e) :
    (GetProjects lib c ctx accessToken).val = none ∧
      (GetProjects lib c ctx accessToken).err = some e := by
  simp only [GetProjects, h, and_self]

theorem GetTasksWithParams_of_err (lib : Lib) (c : Client) (ctx : Context)
    (accessToken paramStr : GoString) (e : GoError)
    (h : (doHTTP lib c ctx accessToken MethodGet (restTasks ++ paramStr) none).err = some e) :
    (GetTasksWithParams lib c ctx accessToken paramStr).val = none ∧
      (GetTasksWithParams lib c ctx accessToken paramStr).err = some e := by
  simp only [GetTasksWithParams, h, and_self]

theorem projectParams (projectID : Int) :
    Sprintf (bytesOf "?project_id=%d") [.int projectID] =
      bytesOf "?project_id=" ++ fmtInt projectID := by
  simp [Sprintf, bytesOf, encodeRune]

theorem doHTTP_sent_mem (lib : Lib) (c : Client) (ctx : Context)
    (accessToken method endpoint : GoString) (body : Option GoString) (req : Request)
    (h : req ∈ (doHTTP lib c ctx accessToken method endpoint body).sent) :
    req = ⟨ctx, if method = [] then MethodGet else method, endpoint,
      [(bytesOf "Authorization", [bytesOf "Bearer " ++ accessToken])], body⟩ := by
  cases hb : lib.newRequestError ctx method endpoint with
  | some e => rw [doHTTP_of_rejected _ _ _ _ _ _ _ e hb] at h; simp at h
  | none =>
    rw [doHTTP_of_built _ _ _ _ _ _ _ hb] at h
    split at h
    · simpa using h
    · split at h
      · simpa using h
      · split at h <;> simpa using h

theorem doHTTP_sent_of_built (lib : Lib) (c : Client) (ctx : Context)
    (accessToken method endpoint : GoString) (body : Option GoString)
    (hb : lib.newRequestError ctx method endpoint = none) :
    (doHTTP lib c ctx accessToken method endpoint body).sent =
      [⟨ctx, if method = [] then MethodGet else method, endpoint,
        [(bytesOf "Authorization", [bytesOf "Bearer " ++ accessToken])], body⟩] := by
  rw [doHTTP_of_built _ _ _ _ _ _ _ hb]
  split
  · rfl
  · split
    · rfl
    · split <;> rfl

theorem doHTTP_non200 (lib : Lib) (c : Client) (ctx : Context)
    (accessToken method endpoint : GoString) (body : Option GoString) (s : Int)
    (hs : s ≠ 200) (hdo : ∀ req, ∃ b, c.client.Do lib req = .ok ⟨s, b⟩)
    (hb : lib.newRequestError ctx method endpoint = none) :
    (doHTTP lib c ctx accessToken method endpoint body).val = none ∧
      (doHTTP lib c ctx accessToken method endpoint body).err =
        some (.errorf (bytesOf ("API Error: got " ++ toString s))) := by
  rw [doHTTP_of_built _ _ _ _ _ _ _ hb]
  obtain ⟨b, hb2⟩ := hdo ⟨ctx, if method = [] then MethodGet else method, endpoint,
      [(bytesOf "Authorization", [bytesOf "Bearer " ++ accessToken])], body⟩
  rw [hb2]
  have h2 : (⟨s, b⟩ : Response).StatusCode ≠ StatusOK := hs
  simp only [h2, ne_eq, not_false_eq_true, if_true, apiError_text, bytesOf_append,
    fmtInt_eq_toString, and_self]

/-- C7: the authorization URL is the authorize endpoint, `?client_id=`, the client id as it
is, and the fixed `&scope=data:read&state=state`. -/
theorem GetAuthorizationRequestURL_eq (c : Client) (ctx : Context) :
    GetAuthorizationRequestURL c ctx =
      bytesOf "https://todoist.com/oauth/authorize?client_id=" ++ c.clientID
        ++ bytesOf "&scope=data:read&state=state" := by
  simp [GetAuthorizationRequestURL, Sprintf, restAuth, bytesOf, encodeRune]

/-- C7 at the client of the tests and at a client id with characters a URL would escape. -/
theorem GetAuthorizationRequestURL_eq_witness :
    GetAuthorizationRequestURL (newClient 200 []) Context.Background =
      bytesOf "https://todoist.com/oauth/authorize?client_id=clientID&scope=data:read&state=state"
    ∧ GetAuthorizationRequestURL ⟨⟨0, none⟩, bytesOf "a b&c=%s", bytesOf "s"⟩ Context.Background =
      bytesOf "https://todoist.com/oauth/authorize?client_id=a b&c=%s&scope=data:read&state=state" :=
  ⟨(GetAuthorizationRequestURL_eq (newClient 200 []) Context.Background).trans (by decide),
   (GetAuthorizationRequestURL_eq ⟨⟨0, none⟩, bytesOf "a b&c=%s", bytesOf "s"⟩
      Context.Background).trans (by decide)⟩

/-- C10: the authorization URL depends on the client id only: two clients with the same id,
whatever their secrets, transports and contexts, get the same URL. -/
theorem GetAuthorizationRequestURL_secret_free (c1 c2 : Client) (ctx1 ctx2 : Context)
    (h : c1.clientID = c2.clientID) :
    GetAuthorizationRequestURL c1 ctx1 = GetAuthorizationRequestURL c2 ctx2 := by
  simp only [GetAuthorizationRequestURL, h]

/-- C10 at two clients that differ in their secret, under different contexts. -/
theorem GetAuthorizationRequestURL_secret_free_witness :
    GetAuthorizationRequestURL ⟨⟨0, none⟩, bytesOf "id", bytesOf "secret one"⟩ Context.Background =
      GetAuthorizationRequestURL ⟨⟨0, none⟩, bytesOf "id", bytesOf "another"⟩ Context.nil :=
  GetAuthorizationRequestURL_secret_free _ _ _ _ rfl

end Todoist

namespace Todoist

/-! ## The task loop of the example driver -/

theorem taskStep_of_empty (lib : Lib) (i : Nat) (t : Task) (h : t.Due.Datetime = []) :
    taskStep lib i t = ⟨[], []⟩ := by
  simp [taskStep, h]

theorem taskStep_of_nonempty (lib : Lib) (i : Nat) (t : Task) (h : t.Due.Datetime ≠ []) :
    (taskStep lib i t).parsed = [t.Due.Datetime] ∧ (taskStep lib i t).printed.length = 1 := by
  simp only [taskStep, h, if_false]
  cases lib.timeParse t.Due.Datetime <;> simp

/-- C9: in the loop over the tasks, a task whose `Due.Datetime` is empty is skipped: nothing is
handed to `time.Parse` and nothing is printed for it, and the loop goes on with the next
index. The strings parsed are exactly the non-empty datetimes, in order, and the lines printed
are one for each task with a non-empty datetime. -/
theorem taskLoop_skips_empty (lib : Lib) (start : Nat) (tasks : List Task) :
    (taskLoop lib start tasks).parsed =
      (tasks.map fun t => t.Due.Datetime).filter (fun d => decide (d ≠ []))
    ∧ (taskLoop lib start tasks).printed.length =
      (tasks.filter fun t => decide (t.Due.Datetime ≠ [])).length
    ∧ (∀ t i, t.Due.Datetime = [] → taskStep lib i t = ⟨[], []⟩)
    ∧ (∀ t i, (taskStep lib i t).printed ≠ [] → t.Due.Datetime ≠ [])
    ∧ (∀ t rest, t.Due.Datetime = [] →
        taskLoop lib start (t :: rest) = taskLoop lib (start + 1) rest) := by
  refine ⟨?_, ?_, fun t i h => taskStep_of_empty lib i t h, ?_, ?_⟩
  · induction tasks generalizing start with
    | nil => rfl
    | cons t rest ih =>
      simp only [taskLoop, List.map_cons, List.filter_cons]
      rw [ih]
      by_cases h : t.Due.Datetime = []
      · simp [taskStep_of_empty lib start t h, h]
      · simp [(taskStep_of_nonempty lib start t h).1, h]
  · induction tasks generalizing start with
    | nil => rfl
    | cons t rest ih =>
      simp only [taskLoop, List.filter_cons, List.length_append]
      rw [ih]
      by_cases h : t.Due.Datetime = []
      · simp [taskStep_of_empty lib start t h, h]
      · simp [(taskStep_of_nonempty lib start t h).2, h]
        omega
  · intro t i hp hd
    rw [taskStep_of_empty lib i t hd] at hp
    exact hp rfl
  · intro t rest h
    simp [taskLoop, taskStep_of_empty lib start t h]

/-- C9 on three tasks, the second and third without a due time: one string is parsed and one
line is printed, whether the string parses as a time or not; two tasks without a due time
leave no trace. -/
theorem taskLoop_skips_empty_witness :
    taskLoop offline 0
      [{ Task.zero with Content := bytesOf "a", Due := ⟨[], [], false, bytesOf "soon", []⟩ },
       { Task.zero with Content := bytesOf "b" }, Task.zero] =
      ⟨[bytesOf "soon"], [.cantCast (bytesOf "a")]⟩
    ∧ taskLoop { offline with timeParse := fun _ => some 7 } 0
      [Task.zero,
       { Task.zero with Content := bytesOf "a", Due := ⟨[], [], false, bytesOf "soon", []⟩ }] =
      ⟨[bytesOf "soon"], [.due 1 (bytesOf "a") 0 7]⟩
    ∧ taskLoop offline 0 [Task.zero, Task.zero] = ⟨[], []⟩ :=
  ⟨by decide, by decide,
   ((taskLoop_skips_empty offline 0 [Task.zero]).2.2.2.2 Task.zero [Task.zero] rfl).trans
    (((taskLoop_skips_empty offline 1 []).2.2.2.2 Task.zero [] rfl).trans rfl)⟩

/-- Every task line that `main` prints is a line of the task loop over the tasks fetched for
the inbox project. -/
theorem main_task_lines (lib : Lib) (l : Line) (h : Out.task l ∈ main lib) :
    ∃ (client : Client) (inboxID : Int),
      l ∈ (taskLoop lib 0 ((GetTasksByProject lib client Context.Background
        (bytesOf "<accessToken for specific client here>") inboxID).val.getD [])).printed := by
  unfold main at h
  split at h
  · simp at h
  · simp at h
  · rename_i client _
    have hhead : ∀ (e : Option GoError) (ps : List Project),
        Out.task l ∉ (match e with
          | some err => [Out.projectsError err]
          | none => []) ++ (ps.enum.map fun ip =>
            Out.project ip.1 ip.2.Name ip.2.ID ip.2.InboxProject) ++ [Out.blank] := by
      intro e ps hmem
      simp only [List.mem_append, List.mem_map, List.mem_singleton] at hmem
      rcases hmem with (hmem | ⟨_, _, hmem⟩) | hmem
      · cases e <;> simp at hmem
      · cases hmem
      · cases hmem
    simp only at h
    split_ifs at h with hi
    · rcases List.mem_append.mp h with h1 | h1
      · exact absurd h1 (hhead _ _)
      · simp at h1
    · split at h
      · rcases List.mem_append.mp h with h1 | h1
        · exact absurd h1 (hhead _ _)
        · simp at h1
      · rcases List.mem_append.mp h with h1 | h1
        · exact absurd h1 (hhead _ _)
        · obtain ⟨l', hl', hEq⟩ := List.mem_map.mp h1
          cases hEq
          exact ⟨client, _, hl'⟩

end Todoist

namespace Todoist

/-! ## UTF-8: decoding undoes encoding -/

theorem encodeRune_length_pos (r : Nat) : 0 < (encodeRune r).length := by
  unfold encodeRune
  split_ifs <;> simp

theorem decodeRune_encodeRune (r : Nat) (hr : isScalar r) (rest : GoString) :
    decodeRune (encodeRune r ++ rest) = (r, (encodeRune r).length) := by
  unfold isScalar at hr
  unfold encodeRune
  by_cases h1 : r < 0x80
  · simp [h1, decodeRune]
  by_cases h2 : r < 0x800
  · have a1 : ¬ (0xC0 + r / 64 < 0x80) := by omega
    have a2 : ¬ (0xC0 + r / 64 < 0xC2) := by omega
    have a3 : 0xC0 + r / 64 < 0xE0 := by omega
    have a4 : isCont (0x80 + r % 64) = true := by simp [isCont]; omega
    simp only [h1, h2, if_true, if_false, List.cons_append, List.nil_append, decodeRune, a1, a2,
      a3, a4, List.length_cons, List.length_nil, Prod.mk.injEq, and_true]
    omega
  by_cases h3 : 0xD800 ≤ r ∧ r < 0xE000
  · omega
  by_cases h4 : r < 0x10000
  · have a1 : ¬ (0xE0 + r / 4096 < 0x80) := by omega
    have a2 : ¬ (0xE0 + r / 4096 < 0xC2) := by omega
    have a3 : ¬ (0xE0 + r / 4096 < 0xE0) := by omega
    have a4 : 0xE0 + r / 4096 < 0xF0 := by omega
    have a5 : isCont (0x80 + r % 64) = true := by simp [isCont]; omega
    have a6 : secondLo (0xE0 + r / 4096) ≤ 0x80 + r / 64 % 64 := by
      unfold secondLo; split_ifs <;> omega
    have a7 : 0x80 + r / 64 % 64 ≤ secondHi (0xE0 + r / 4096) := by
      unfold secondHi; split_ifs <;> omega
    simp only [h1, h2, h3, h4, if_true, if_false, List.cons_append, List.nil_append, decodeRune,
      a1, a2, a3, a4, a5, a6, a7, and_self, List.length_cons, List.length_nil, Prod.mk.injEq,
      and_true]
    omega
  have h5 : r < 0x110000 := by omega
  have a1 : ¬ (0xF0 + r / 262144 < 0x80) := by omega
  have a2 : ¬ (0xF0 + r / 262144 < 0xC2) := by omega
  have a3 : ¬ (0xF0 + r / 262144 < 0xE0) := by omega
  have a4 : ¬ (0xF0 + r / 262144 < 0xF0) := by omega
  have a4' : 0xF0 + r / 262144 < 0xF5 := by omega
  have a5 : isCont (0x80 + r % 64) = true := by simp [isCont]; omega
  have a5' : isCont (0x80 + r / 64 % 64) = true := by simp [isCont]; omega
  have a6 : secondLo (0xF0 + r / 262144) ≤ 0x80 + r / 4096 % 64 := by
    unfold secondLo; split_ifs <;> omega
  have a7 : 0x80 + r / 4096 % 64 ≤ secondHi (0xF0 + r / 262144) := by
    unfold secondHi; split_ifs <;> omega
  simp only [h1, h2, h3, h4, h5, if_true, if_false, List.cons_append, List.nil_append, decodeRune,
    a1, a2, a3, a4, a4', a5, a5', a6, a7, and_self, List.length_cons, List.length_nil,
    Prod.mk.injEq, and_true]
  omega

theorem encodeRune_length_two (r : Nat) (h : 0x80 ≤ r) : 2 ≤ (encodeRune r).length := by
  unfold encodeRune
  split_ifs
  all_goals first
    | omega
    | simp

/-- The bytes of the encoding of a code point above the ASCII range are all above it. -/
theorem encodeRune_high (r : Nat) (h : 0x80 ≤ r) : ∀ b ∈ encodeRune r, 0x80 ≤ b := by
  unfold encodeRune
  intro b hb
  split_ifs at hb <;> simp at hb <;> omega

end Todoist

namespace Todoist

theorem four_bytes (x0 x1 x2 x3 : Nat) (h1 : x1 < 64) (h2 : x2 < 64) (h3 : x3 < 64) :
    (x0 * 262144 + x1 * 4096 + x2 * 64 + x3) / 262144 = x0 ∧
    (x0 * 262144 + x1 * 4096 + x2 * 64 + x3) / 4096 % 64 = x1 ∧
    (x0 * 262144 + x1 * 4096 + x2 * 64 + x3) / 64 % 64 = x2 ∧
    (x0 * 262144 + x1 * 4096 + x2 * 64 + x3) % 64 = x3 := by
  have q1 : (x0 * 262144 + x1 * 4096 + x2 * 64 + x3) / 4096 = x0 * 64 + x1 := by omega
  have q2 : (x0 * 262144 + x1 * 4096 + x2 * 64 + x3) / 64 = x0 * 4096 + x1 * 64 + x2 := by omega
  refine ⟨by omega, ?_, ?_, by omega⟩
  · rw [q1]; omega
  · rw [q2]; omega

theorem decodeRune_sound (b : Nat) (rest : GoString)
    (h : ¬ ((decodeRune (b :: rest)).1 = 0xFFFD ∧ (decodeRune (b :: rest)).2 = 1)) :
    isScalar (decodeRune (b :: rest)).1 ∧
      b :: rest = encodeRune (decodeRune (b :: rest)).1 ++
        rest.drop ((decodeRune (b :: rest)).2 - 1) := by
  unfold isScalar
  by_cases h1 : b < 0x80
  · simp only [decodeRune, h1, if_true] at h ⊢
    simp [encodeRune, h1]
    omega
  by_cases h2 : b < 0xC2
  · simp [decodeRune, h1, h2] at h
  by_cases h3 : b < 0xE0
  · cases rest with
    | nil => simp [decodeRune, h1, h2, h3] at h
    | cons b1 tl =>
      by_cases hc : isCont b1 = true
      · simp only [decodeRune, h1, h2, h3, hc, if_true, if_false] at h ⊢
        simp only [isCont, decide_eq_true_eq] at hc
        have e1 : ¬ ((b - 0xC0) * 64 + (b1 - 0x80) < 0x80) := by omega
        have e2 : (b - 0xC0) * 64 + (b1 - 0x80) < 0x800 := by omega
        have e3 : 0xC0 + ((b - 0xC0) * 64 + (b1 - 0x80)) / 64 = b := by omega
        have e4 : 0x80 + ((b - 0xC0) * 64 + (b1 - 0x80)) % 64 = b1 := by omega
        simp only [encodeRune, e1, e2, e3, e4, if_true, if_false]
        refine ⟨by omega, by simp⟩
      · simp [decodeRune, h1, h2, h3, hc] at h
  by_cases h4 : b < 0xF0
  · rcases rest with _ | ⟨b1, _ | ⟨b2, tl⟩⟩
    · simp [decodeRune, h1, h2, h3, h4] at h
    · simp [decodeRune, h1, h2, h3, h4] at h
    · by_cases hc : secondLo b ≤ b1 ∧ b1 ≤ secondHi b ∧ isCont b2 = true
      · simp only [decodeRune, h1, h2, h3, h4, hc, and_self, if_true, if_false] at h ⊢
        obtain ⟨c1, c2, c3⟩ := hc
        simp only [isCont, decide_eq_true_eq] at c3
        have c1' : (if b = 0xE0 then 0xA0 else 0x80) ≤ b1 := by
          unfold secondLo at c1; split_ifs at c1 ⊢ <;> omega
        have c2' : b1 ≤ (if b = 0xED then 0x9F else 0xBF) := by
          unfold secondHi at c2; split_ifs at c2 ⊢ <;> omega
        have hb1 : 0x80 ≤ b1 ∧ b1 ≤ 0xBF := by split_ifs at c1' c2' <;> omega
        have e0 : (b - 0xE0) * 4096 + (b1 - 0x80) * 64 + (b2 - 0x80) ≥ 0x800 := by
          split_ifs at c1' <;> omega
        have es : ¬ (0xD800 ≤ (b - 0xE0) * 4096 + (b1 - 0x80) * 64 + (b2 - 0x80) ∧
            (b - 0xE0) * 4096 + (b1 - 0x80) * 64 + (b2 - 0x80) < 0xE000) := by
          split_ifs at c2' <;> omega
        have e1 : ¬ ((b - 0xE0) * 4096 + (b1 - 0x80) * 64 + (b2 - 0x80) < 0x80) := by omega
        have e2 : ¬ ((b - 0xE0) * 4096 + (b1 - 0x80) * 64 + (b2 - 0x80) < 0x800) := by omega
        have e3 : (b - 0xE0) * 4096 + (b1 - 0x80) * 64 + (b2 - 0x80) < 0x10000 := by omega
        have e4 : 0xE0 + ((b - 0xE0) * 4096 + (b1 - 0x80) * 64 + (b2 - 0x80)) / 4096 = b := by
          omega
        have e5 : 0x80 + ((b - 0xE0) * 4096 + (b1 - 0x80) * 64 + (b2 - 0x80)) / 64 % 64 = b1 := by
          omega
        have e6 : 0x80 + ((b - 0xE0) * 4096 + (b1 - 0x80) * 64 + (b2 - 0x80)) % 64 = b2 := by
          omega
        simp only [encodeRune, e1, e2, es, e3, e4, e5, e6, if_true, if_false]
        refine ⟨by omega, by simp⟩
      · simp [decodeRune, h1, h2, h3, h4, hc] at h
  by_cases h5 : b < 0xF5
  · rcases rest with _ | ⟨b1, _ | ⟨b2, _ | ⟨b3, tl⟩⟩⟩
    · simp [decodeRune, h1, h2, h3, h4, h5] at h
    · simp [decodeRune, h1, h2, h3, h4, h5] at h
    · simp [decodeRune, h1, h2, h3, h4, h5] at h
    · by_cases hc : secondLo b ≤ b1 ∧ b1 ≤ secondHi b ∧ isCont b2 = true ∧ isCont b3 = true
      · simp only [decodeRune, h1, h2, h3, h4, h5, hc, and_self, if_true, if_false] at h ⊢
        obtain ⟨c1, c2, c3, c4⟩ := hc
        simp only [isCont, decide_eq_true_eq] at c3 c4
        have c1' : (if b = 0xF0 then 0x90 else 0x80) ≤ b1 := by
          unfold secondLo at c1; split_ifs at c1 ⊢ <;> omega
        have c2' : b1 ≤ (if b = 0xF4 then 0x8F else 0xBF) := by
          unfold secondHi at c2; split_ifs at c2 ⊢ <;> omega
        have hb1 : 0x80 ≤ b1 ∧ b1 ≤ 0xBF := by split_ifs at c1' c2' <;> omega
        obtain ⟨x0, rfl⟩ : ∃ x0, b = x0 + 0xF0 := ⟨b - 0xF0, by omega⟩
        obtain ⟨x1, rfl⟩ : ∃ x1, b1 = x1 + 0x80 := ⟨b1 - 0x80, by omega⟩
        obtain ⟨x2, rfl⟩ : ∃ x2, b2 = x2 + 0x80 := ⟨b2 - 0x80, by omega⟩
        obtain ⟨x3, rfl⟩ : ∃ x3, b3 = x3 + 0x80 := ⟨b3 - 0x80, by omega⟩
        simp only [Nat.add_sub_cancel]
        have k0 : x0 ≤ 4 := by omega
        have k1 : x1 < 64 := by omega
        have k2 : x2 < 64 := by omega
        have k3 : x3 < 64 := by omega
        have e0 : x0 * 262144 + x1 * 4096 + x2 * 64 + x3 ≥ 0x10000 := by
          split_ifs at c1' <;> omega
        have e3 : x0 * 262144 + x1 * 4096 + x2 * 64 + x3 < 0x110000 := by
          split_ifs at c2' <;> omega
        have e1 : ¬ (x0 * 262144 + x1 * 4096 + x2 * 64 + x3 < 0x80) := by omega
        have e2 : ¬ (x0 * 262144 + x1 * 4096 + x2 * 64 + x3 < 0x800) := by omega
        have es : ¬ (0xD800 ≤ x0 * 262144 + x1 * 4096 + x2 * 64 + x3 ∧
            x0 * 262144 + x1 * 4096 + x2 * 64 + x3 < 0xE000) := by omega
        have e2' : ¬ (x0 * 262144 + x1 * 4096 + x2 * 64 + x3 < 0x10000) := by omega
        have hsc : x0 * 262144 + x1 * 4096 + x2 * 64 + x3 < 0xD800 ∨
            (0xE000 ≤ x0 * 262144 + x1 * 4096 + x2 * 64 + x3 ∧
              x0 * 262144 + x1 * 4096 + x2 * 64 + x3 < 0x110000) := by omega
        obtain ⟨e4, e5, e6, e7⟩ := four_bytes x0 x1 x2 x3 k1 k2 k3
        simp only [encodeRune, e1, e2, es, e2', e3, e4, e5, e6, e7, if_true, if_false]
        refine ⟨Or.inr ⟨by rcases hsc with h' | h' <;> omega, trivial⟩, by simp [Nat.add_comm]⟩
      · simp [decodeRune, h1, h2, h3, h4, h5, hc] at h
  · simp [decodeRune, h1, h2, h3, h4, h5] at h

theorem validUTF8_of_utf8Valid : ∀ (fuel : Nat) (s : GoString), utf8Valid fuel s = true →
    ValidUTF8 s := by
  intro fuel
  induction fuel with
  | zero =>
    intro s h
    cases s with
    | nil => exact ⟨[], by simp, rfl⟩
    | cons b rest => simp [utf8Valid] at h
  | succ fuel ih =>
    intro s h
    cases s with
    | nil => exact ⟨[], by simp, rfl⟩
    | cons b rest =>
      simp only [utf8Valid] at h
      by_cases hd : (decodeRune (b :: rest)).1 = 0xFFFD ∧ (decodeRune (b :: rest)).2 = 1
      · simp [hd] at h
      · simp only [hd, if_false] at h
        obtain ⟨rs, hrs, hrest⟩ := ih _ h
        obtain ⟨hsc, heq⟩ := decodeRune_sound b rest hd
        refine ⟨(decodeRune (b :: rest)).1 :: rs, ?_, ?_⟩
        · intro r hr
          rcases List.mem_cons.mp hr with rfl | hr
          · exact hsc
          · exact hrs r hr
        · rw [List.flatMap_cons, ← hrest]
          exact heq

/-- A string accepted by `utf8.ValidString` is the encoding of scalar values. -/
theorem validUTF8_of_validString (s : GoString) (h : validString s = true) : ValidUTF8 s :=
  validUTF8_of_utf8Valid _ s h

theorem utf8Valid_encoded (rs : List Nat) (hrs : ∀ r ∈ rs, isScalar r) :
    ∀ fuel, (rs.flatMap encodeRune).length ≤ fuel →
      utf8Valid fuel (rs.flatMap encodeRune) = true := by
  induction rs with
  | nil => intro fuel _; cases fuel <;> rfl
  | cons r rs ih =>
    intro fuel hfuel
    have hr : isScalar r := hrs r (List.mem_cons_self _ _)
    have hdec := decodeRune_encodeRune r hr (rs.flatMap encodeRune)
    simp only [List.flatMap_cons, List.length_append] at hfuel ⊢
    have hpos := encodeRune_length_pos r
    obtain ⟨f, rfl⟩ : ∃ f, fuel = f + 1 := ⟨fuel - 1, by omega⟩
    cases he : encodeRune r with
    | nil => rw [he] at hpos; simp at hpos
    | cons b more =>
      rw [he] at hdec hfuel
      simp only [List.cons_append] at hdec ⊢
      have hlen : r < 0x80 ∨ 2 ≤ (b :: more).length := by
        by_cases h1 : r < 0x80
        · exact Or.inl h1
        · right; rw [← he]; exact encodeRune_length_two r (by omega)
      have hne : ¬ (r = 0xFFFD ∧ more.length + 1 = 1) := by
        simp only [List.length_cons] at hlen; omega
      simp only [utf8Valid, hdec, List.length_cons, Nat.add_sub_cancel, List.drop_left, hne,
        if_false]
      exact ih (fun x hx => hrs x (List.mem_cons_of_mem _ hx)) f
        (by simp only [List.length_cons] at hfuel; omega)

/-- The checker `utf8.ValidString` accepts exactly the encodings of scalar values. -/
theorem validString_iff (s : GoString) : validString s = true ↔ ValidUTF8 s := by
  constructor
  · exact validUTF8_of_validString s
  · rintro ⟨rs, hrs, rfl⟩
    exact utf8Valid_encoded rs hrs _ (le_refl _)

end Todoist

namespace Todoist

/-! ## String literals: the decoder undoes the encoder on well-formed UTF-8 -/

theorem quoteAux_nil (fuel : Nat) : quoteAux fuel [] = [] := by
  cases fuel <;> rfl

theorem quoteAux_encoded (rs : List Nat) (hrs : ∀ r ∈ rs, isScalar r) :
    ∀ fuel, (rs.flatMap encodeRune).length ≤ fuel →
      quoteAux fuel (rs.flatMap encodeRune) = rs.flatMap quoteRune := by
  induction rs with
  | nil => intro fuel _; simp [quoteAux_nil]
  | cons r rs ih =>
    intro fuel hfuel
    have hr : isScalar r := hrs r (List.mem_cons_self _ _)
    have ih' := ih (fun x hx => hrs x (List.mem_cons_of_mem _ hx))
    simp only [List.flatMap_cons, List.length_append] at hfuel ⊢
    by_cases h1 : r < 0x80
    · have he : encodeRune r = [r] := by simp [encodeRune, h1]
      rw [he] at hfuel ⊢
      obtain ⟨f, rfl⟩ : ∃ f, fuel = f + 1 := ⟨fuel - 1, by simp at hfuel; omega⟩
      have hf : (rs.flatMap encodeRune).length ≤ f := by
        simp only [List.length_cons, List.length_nil] at hfuel; omega
      simp only [List.singleton_append, quoteAux, h1, if_true, quoteRune]
      split_ifs <;> simp [ih' f hf]
    · have h80 : 0x80 ≤ r := by omega
      have hlen := encodeRune_length_two r h80
      have hdec := decodeRune_encodeRune r hr (rs.flatMap encodeRune)
      cases he : encodeRune r with
      | nil => rw [he] at hlen; simp at hlen
      | cons b more =>
        rw [he] at hlen hdec hfuel
        have hb : 0x80 ≤ b := encodeRune_high r h80 b (by rw [he]; exact List.mem_cons_self _ _)
        have hb' : ¬ b < 0x80 := by omega
        obtain ⟨f, rfl⟩ : ∃ f, fuel = f + 1 := ⟨fuel - 1, by simp at hfuel; omega⟩
        have hf : (rs.flatMap encodeRune).length ≤ f := by
          simp only [List.length_cons] at hfuel hlen; omega
        have hm : 1 ≤ more.length := by simp at hlen; omega
        simp only [List.cons_append] at hdec
        rw [List.cons_append, quoteAux]
        simp only [hb', if_false, hdec, List.length_cons,
          Nat.add_sub_cancel, List.drop_left, List.take_left, quoteRune, h1]
        have hne : ¬ (r = 0xFFFD ∧ more.length + 1 = 1) := by omega
        simp only [hne, if_false]
        split_ifs
        · simp [ih' f hf]
        · simp [ih' f hf, he]

/-- A byte the scanner passes over inside a string literal. -/
theorem scanString_plain (c : Nat) (h1 : c ≠ 34) (h2 : c ≠ 92) (h3 : ¬ c < 32) (f : Nat)
    (x : GoString) :
    scanString (f + 1) (c :: x) = (scanString f x).map fun p => (c :: p.1, p.2) := by
  simp [scanString, h1, h2, h3]

theorem scanString_plain_run (pre : GoString) (hpre : ∀ c ∈ pre, 0x80 ≤ c) (x : GoString) :
    ∀ fuel, pre.length ≤ fuel →
      scanString fuel (pre ++ x) =
        (scanString (fuel - pre.length) x).map fun p => (pre ++ p.1, p.2) := by
  induction pre with
  | nil => intro fuel _; simp
  | cons c pre ih =>
    intro fuel hfuel
    obtain ⟨f, rfl⟩ : ∃ f, fuel = f + 1 := ⟨fuel - 1, by simp at hfuel; omega⟩
    have hc : 0x80 ≤ c := hpre c (List.mem_cons_self _ _)
    rw [List.cons_append, scanString_plain c (by omega) (by omega) (by omega),
      ih (fun y hy => hpre y (List.mem_cons_of_mem _ hy)) f (by simp at hfuel; omega)]
    simp only [Option.map_map, List.length_cons, Nat.add_sub_add_right]
    rfl

theorem isHex_hexDigit (n : Nat) (h : n < 16) : isHex (hexDigit n) = true := by
  simp only [isHex, hexDigit, decide_eq_true_eq]
  split_ifs <;> omega

theorem hexVal_hexDigit (n : Nat) (h : n < 16) : hexVal (hexDigit n) = n := by
  simp only [hexVal, hexDigit]
  split_ifs <;> omega

theorem quoteRune_length_pos (r : Nat) : 0 < (quoteRune r).length := by
  unfold quoteRune
  split_ifs <;> simp [encodeRune_length_pos]

theorem scanString_quoteRune (r : Nat) (x : GoString) (fuel : Nat)
    (hfuel : (quoteRune r).length ≤ fuel) :
    ∃ f, fuel ≤ f + (quoteRune r).length ∧
      scanString fuel (quoteRune r ++ x) =
        (scanString f x).map fun p => (quoteRune r ++ p.1, p.2) := by
  by_cases h1 : r < 0x80
  · obtain ⟨f, rfl⟩ : ∃ f, fuel = f + 1 :=
      ⟨fuel - 1, by have := quoteRune_length_pos r; omega⟩
    refine ⟨f, by have := quoteRune_length_pos r; omega, ?_⟩
    have h16 : r / 16 < 16 := by omega
    have h16' : r % 16 < 16 := by omega
    unfold quoteRune
    simp only [h1, if_true]
    split_ifs with a1 a2 a3 a4 a5
    · simp only [htmlSafe, decide_eq_true_eq] at a1
      exact scanString_plain r (by omega) (by omega) (by omega) f x
    · rcases a2 with rfl | rfl <;> simp [scanString]
    · simp [scanString]
    · simp [scanString]
    · simp [scanString]
    · have e0 : isHex 48 = true := by decide
      simp [scanString, isHex_hexDigit _ h16, isHex_hexDigit _ h16', e0]
  · by_cases h2 : r = 0x2028 ∨ r = 0x2029
    · obtain ⟨f, rfl⟩ : ∃ f, fuel = f + 1 :=
        ⟨fuel - 1, by have := quoteRune_length_pos r; omega⟩
      refine ⟨f, by have := quoteRune_length_pos r; omega, ?_⟩
      rcases h2 with rfl | rfl <;> simp [quoteRune, scanString, isHex, hexDigit, htmlSafe]
    · have hq : quoteRune r = encodeRune r := by simp [quoteRune, h1, h2]
      rw [hq] at hfuel ⊢
      exact ⟨fuel - (encodeRune r).length, by omega,
        scanString_plain_run _ (encodeRune_high r (by omega)) x fuel hfuel⟩

theorem scanString_quoted (rs : List Nat) (rest : GoString) :
    ∀ fuel, (rs.flatMap quoteRune).length < fuel →
      scanString fuel (rs.flatMap quoteRune ++ 34 :: rest) = some (rs.flatMap quoteRune, rest) := by
  induction rs with
  | nil =>
    intro fuel hfuel
    obtain ⟨f, rfl⟩ : ∃ f, fuel = f + 1 := ⟨fuel - 1, by omega⟩
    simp [scanString]
  | cons r rs ih =>
    intro fuel hfuel
    simp only [List.flatMap_cons, List.length_append, List.append_assoc] at hfuel ⊢
    obtain ⟨f, hf, hscan⟩ := scanString_quoteRune r (rs.flatMap quoteRune ++ 34 :: rest) fuel
      (by omega)
    rw [hscan, ih f (by omega)]
    simp

end Todoist

namespace Todoist

theorem unquoteAux_high (fuel c : Nat) (rest : GoString) (hc : 0x80 ≤ c) :
    unquoteAux (fuel + 1) (c :: rest) =
      (unquoteAux fuel (rest.drop ((decodeRune (c :: rest)).2 - 1))).map fun t =>
        encodeRune (decodeRune (c :: rest)).1 ++ t := by
  have b1 : ¬ c = 92 := by omega
  have b2 : ¬ (c = 34 ∨ c < 32) := by omega
  have b3 : ¬ c < 0x80 := by omega
  simp only [unquoteAux, b1, b2, b3, if_false]

theorem unquoteAux_quoteRune (r : Nat) (hr : isScalar r) (x : GoString) (fuel : Nat)
    (hfuel : (quoteRune r).length ≤ fuel) :
    ∃ f, fuel ≤ f + (quoteRune r).length ∧
      unquoteAux fuel (quoteRune r ++ x) = (unquoteAux f x).map fun t => encodeRune r ++ t := by
  obtain ⟨f, rfl⟩ : ∃ f, fuel = f + 1 :=
    ⟨fuel - 1, by have := quoteRune_length_pos r; omega⟩
  refine ⟨f, by have := quoteRune_length_pos r; omega, ?_⟩
  by_cases h1 : r < 0x80
  · have he : encodeRune r = [r] := by simp [encodeRune, h1]
    have h16 : r / 16 < 16 := by omega
    have h16' : r % 16 < 16 := by omega
    rw [he]
    unfold quoteRune
    simp only [h1, if_true]
    split_ifs with a1 a2 a3 a4 a5
    · simp only [htmlSafe, decide_eq_true_eq] at a1
      have b1 : ¬ r = 92 := by omega
      have b2 : ¬ (r = 34 ∨ r < 32) := by omega
      simp [unquoteAux, b1, b2, h1]
    · rcases a2 with rfl | rfl <;> simp [unquoteAux]
    · subst a3; simp [unquoteAux]
    · subst a4; simp [unquoteAux]
    · subst a5; simp [unquoteAux]
    · have e0 : isHex 48 = true := by decide
      have e1 : hexVal 48 = 0 := by decide
      have hv : hexVal (hexDigit (r / 16)) * 16 + hexVal (hexDigit (r % 16)) = r := by
        rw [hexVal_hexDigit _ h16, hexVal_hexDigit _ h16']; omega
      have hs : ¬ (0xD800 ≤ r ∧ r < 0xE000) := by omega
      simp [unquoteAux, getu4, isHex_hexDigit _ h16, isHex_hexDigit _ h16', e0, e1, hv, hs, he]
  · by_cases h2 : r = 0x2028 ∨ r = 0x2029
    · rcases h2 with rfl | rfl <;>
        simp [quoteRune, unquoteAux, getu4, isHex, hexVal, hexDigit, htmlSafe, encodeRune]
    · have hq : quoteRune r = encodeRune r := by simp [quoteRune, h1, h2]
      have h80 : 0x80 ≤ r := by omega
      have hlen := encodeRune_length_two r h80
      have hdec := decodeRune_encodeRune r hr x
      rw [hq]
      cases he : encodeRune r with
      | nil => rw [he] at hlen; simp at hlen
      | cons b more =>
        rw [he] at hdec
        have hb : 0x80 ≤ b := encodeRune_high r h80 b (by rw [he]; exact List.mem_cons_self _ _)
        simp only [List.cons_append] at hdec
        rw [List.cons_append, unquoteAux_high _ _ _ hb]
        simp only [hdec, List.length_cons, Nat.add_sub_cancel, List.drop_left, he]

theorem unquoteAux_quoted (rs : List Nat) (hrs : ∀ r ∈ rs, isScalar r) :
    ∀ fuel, (rs.flatMap quoteRune).length ≤ fuel →
      unquoteAux fuel (rs.flatMap quoteRune) = some (rs.flatMap encodeRune) := by
  induction rs with
  | nil => intro fuel _; simp [unquoteAux]
  | cons r rs ih =>
    intro fuel hfuel
    simp only [List.flatMap_cons, List.length_append] at hfuel ⊢
    obtain ⟨f, hf, hu⟩ := unquoteAux_quoteRune r (hrs r (List.mem_cons_self _ _))
      (rs.flatMap quoteRune) fuel (by omega)
    rw [hu, ih (fun y hy => hrs y (List.mem_cons_of_mem _ hy)) f (by omega)]
    simp

/-- The string literal written for a well-formed UTF-8 string is read back as that string. -/
theorem scan_unquote_appendString (s : GoString) (hs : ValidUTF8 s) (rest : GoString) :
    ∃ raw, appendString s ++ rest = 34 :: (raw ++ 34 :: rest) ∧
      (∀ fuel, raw.length < fuel → scanString fuel (raw ++ 34 :: rest) = some (raw, rest)) ∧
      unquote raw = some s := by
  obtain ⟨rs, hrs, rfl⟩ := hs
  refine ⟨rs.flatMap quoteRune, ?_, fun fuel hf => scanString_quoted rs rest fuel hf, ?_⟩
  · unfold appendString
    rw [quoteAux_encoded rs hrs _ (le_refl _)]
    simp
  · exact unquoteAux_quoted rs hrs _ (le_refl _)

end Todoist

namespace Todoist

/-! ## Number literals: decimal integers are read back -/

theorem fmtNatAux_acc (fuel : Nat) : ∀ n acc, n < fuel →
    fmtNatAux fuel n acc = fmtNatAux fuel n [] ++ acc := by
  induction fuel with
  | zero => intro n acc h; omega
  | succ fuel ih =>
    intro n acc h
    simp only [fmtNatAux]
    by_cases h10 : n < 10
    · simp [h10]
    · simp only [h10, if_false]
      rw [ih (n / 10) _ (by omega), ih (n / 10) [48 + n % 10] (by omega)]
      simp

theorem fmtNatAux_fuel (f1 : Nat) : ∀ f2 n acc, n < f1 → n < f2 →
    fmtNatAux f1 n acc = fmtNatAux f2 n acc := by
  induction f1 with
  | zero => intro f2 n acc h; omega
  | succ f1 ih =>
    intro f2 n acc h1 h2
    obtain ⟨g, rfl⟩ : ∃ g, f2 = g + 1 := ⟨f2 - 1, by omega⟩
    simp only [fmtNatAux]
    by_cases h10 : n < 10
    · simp [h10]
    · simp only [h10, if_false]
      exact ih g (n / 10) _ (by omega) (by omega)

theorem fmtNat_small (n : Nat) (h : n < 10) : fmtNat n = [48 + n] := by
  simp [fmtNat, fmtNatAux, h]

theorem fmtNat_large (n : Nat) (h : ¬ n < 10) : fmtNat n = fmtNat (n / 10) ++ [48 + n % 10] := by
  have h1 : fmtNat n = fmtNatAux n (n / 10) [48 + n % 10] := by
    simp only [fmtNat, fmtNatAux, h, if_false]
  rw [h1, fmtNatAux_acc n (n / 10) _ (by omega),
    fmtNatAux_fuel n (n / 10 + 1) (n / 10) [] (by omega) (by omega)]
  rfl

theorem fmtNat_digits (n : Nat) : ∀ c ∈ fmtNat n, isDigit c = true := by
  induction n using Nat.strong_induction_on with
  | _ n ih =>
    by_cases h : n < 10
    · rw [fmtNat_small n h]
      intro c hc
      simp only [List.mem_singleton] at hc
      simp only [isDigit, decide_eq_true_eq]
      omega
    · rw [fmtNat_large n h]
      intro c hc
      rcases List.mem_append.mp hc with hc | hc
      · exact ih (n / 10) (by omega) c hc
      · simp only [List.mem_singleton] at hc
        simp only [isDigit, decide_eq_true_eq]
        omega

theorem fmtNat_head (n : Nat) (hn : 0 < n) :
    ∃ d ds, fmtNat n = d :: ds ∧ 49 ≤ d ∧ d ≤ 57 := by
  induction n using Nat.strong_induction_on with
  | _ n ih =>
    by_cases h : n < 10
    · exact ⟨48 + n, [], fmtNat_small n h, by omega, by omega⟩
    · obtain ⟨d, ds, hd, h1, h2⟩ := ih (n / 10) (by omega) (by omega)
      exact ⟨d, ds ++ [48 + n % 10], by rw [fmtNat_large n h, hd]; rfl, h1, h2⟩

theorem parseDigits_snoc (xs : GoString) (d : Nat) (hd : isDigit d = true) : ∀ acc,
    parseDigits (xs ++ [d]) acc = (parseDigits xs acc).map fun a => a * 10 + (d - 48) := by
  induction xs with
  | nil => intro acc; simp [parseDigits, hd]
  | cons c xs ih =>
    intro acc
    simp only [List.cons_append, parseDigits]
    split_ifs
    · exact ih _
    · rfl

theorem parseDigits_fmtNat (n : Nat) : parseDigits (fmtNat n) 0 = some n := by
  induction n using Nat.strong_induction_on with
  | _ n ih =>
    by_cases h : n < 10
    · have hd : isDigit (48 + n) = true := by simp only [isDigit, decide_eq_true_eq]; omega
      simp [fmtNat_small n h, parseDigits, hd]
    · have hd : isDigit (48 + n % 10) = true := by
        simp only [isDigit, decide_eq_true_eq]; omega
      rw [fmtNat_large n h, parseDigits_snoc _ _ hd, ih (n / 10) (by omega)]
      simp only [Option.map_some', Option.some.injEq]
      omega

theorem parseIntLit_fmtInt (n : Int) : parseIntLit (fmtInt n) = some n := by
  cases n with
  | ofNat m =>
    have hp := parseDigits_fmtNat m
    show parseIntLit (fmtNat m) = some (Int.ofNat m)
    cases hm : fmtNat m with
    | nil => rw [hm] at hp; simp [parseDigits] at hp; subst hp; simp [fmtNat, fmtNatAux] at hm
    | cons c rest =>
      have hc : isDigit c = true := fmtNat_digits m c (by rw [hm]; exact List.mem_cons_self _ _)
      simp only [isDigit, decide_eq_true_eq] at hc
      have c1 : ¬ c = 45 := by omega
      have c2 : ¬ c = 43 := by omega
      rw [hm] at hp
      simp [parseIntLit, c1, c2, hp]
  | negSucc m =>
    show parseIntLit (45 :: fmtNat (m + 1)) = some (Int.negSucc m)
    obtain ⟨d, ds, hd, _, _⟩ := fmtNat_head (m + 1) (by omega)
    have hne : fmtNat (m + 1) ≠ [] := by rw [hd]; simp
    simp only [parseIntLit, if_true, hne, if_false, parseDigits_fmtNat, Option.map_some']
    rfl

theorem scanNumber_int (ds : GoString) (hds : ∀ c ∈ ds, isDigit c = true) (rest : GoString)
    (hrest : numStop rest = true) : scanNumber .int (ds ++ rest) = some (ds, rest) := by
  induction ds with
  | nil =>
    cases rest with
    | nil => simp [scanNumber, NumState.accepting]
    | cons c rest =>
      simp only [numStop, Bool.and_eq_true, Bool.not_eq_true', decide_eq_true_eq] at hrest
      obtain ⟨⟨⟨h1, h2⟩, h3⟩, h4⟩ := hrest
      simp [scanNumber, NumState.step, NumState.accepting, h1, h2, h3, h4]
  | cons d ds ih =>
    have hd : isDigit d = true := hds d (List.mem_cons_self _ _)
    simp [scanNumber, NumState.step, hd, ih (fun c hc => hds c (List.mem_cons_of_mem _ hc))]

theorem scanNumber_zero (rest : GoString) (hrest : numStop rest = true) :
    scanNumber .zero rest = some ([], rest) := by
  cases rest with
  | nil => simp [scanNumber, NumState.accepting]
  | cons c rest =>
    simp only [numStop, Bool.and_eq_true, Bool.not_eq_true', decide_eq_true_eq] at hrest
    obtain ⟨⟨⟨h1, h2⟩, h3⟩, h4⟩ := hrest
    simp [scanNumber, NumState.step, NumState.accepting, h2, h3, h4]

theorem scanNumber_fmtNat (s : NumState) (hs : s = .start ∨ s = .neg) (n : Nat) (rest : GoString)
    (hrest : numStop rest = true) :
    scanNumber s (fmtNat n ++ rest) = some (fmtNat n, rest) := by
  by_cases h0 : n = 0
  · subst h0
    have : fmtNat 0 = [48] := by decide
    rw [this]
    rcases hs with rfl | rfl <;>
      simp [scanNumber, NumState.step, scanNumber_zero rest hrest]
  · obtain ⟨d, ds, hd, h1, h2⟩ := fmtNat_head n (by omega)
    have hds : ∀ c ∈ ds, isDigit c = true := fun c hc =>
      fmtNat_digits n c (by rw [hd]; exact List.mem_cons_of_mem _ hc)
    have hdig : isDigit d = true := by simp only [isDigit, decide_eq_true_eq]; omega
    have d1 : ¬ d = 45 := by omega
    have d2 : ¬ d = 48 := by omega
    rw [hd]
    rcases hs with rfl | rfl <;>
      simp [scanNumber, NumState.step, d1, d2, hdig, scanNumber_int ds hds rest hrest]

theorem scanNumber_fmtInt (n : Int) (rest : GoString) (hrest : numStop rest = true) :
    scanNumber .start (fmtInt n ++ rest) = some (fmtInt n, rest) := by
  cases n with
  | ofNat m => exact scanNumber_fmtNat .start (Or.inl rfl) m rest hrest
  | negSucc m =>
    show scanNumber .start (45 :: (fmtNat (m + 1) ++ rest)) = some (45 :: fmtNat (m + 1), rest)
    simp [scanNumber, NumState.step, scanNumber_fmtNat .neg (Or.inr rfl) (m + 1) rest hrest]

/-- A decimal integer starts with a minus sign or a digit. -/
theorem fmtInt_head (n : Int) : ∃ c cs, fmtInt n = c :: cs ∧ (c = 45 ∨ isDigit c = true) := by
  cases n with
  | ofNat m =>
    show ∃ c cs, fmtNat m = c :: cs ∧ _
    by_cases h0 : m = 0
    · subst h0; exact ⟨48, [], by decide, Or.inr (by decide)⟩
    · obtain ⟨d, ds, hd, h1, h2⟩ := fmtNat_head m (by omega)
      exact ⟨d, ds, hd, Or.inr (by simp only [isDigit, decide_eq_true_eq]; omega)⟩
  | negSucc m => exact ⟨45, fmtNat (m + 1), rfl, Or.inl rfl⟩

end Todoist

namespace Todoist

/-! ## The parser reads back what the encoder writes -/

theorem skipWS_cons (c : Nat) (x : GoString) (h : isWS c = false) : skipWS (c :: x) = c :: x := by
  simp [skipWS, h]

theorem appendString_cons (s : GoString) : ∃ tl, appendString s = 34 :: tl := ⟨_, rfl⟩

theorem render_head : ∀ v : JSON, v.Plain →
    ∃ c tl, render v = c :: tl ∧ isWS c = false ∧ c ≠ 93 ∧ c ≠ 125 ∧ c ≠ 44
  | .null, _ => ⟨110, [117, 108, 108], by decide, by decide, by decide, by decide, by decide⟩
  | .bool true, _ => ⟨116, [114, 117, 101], by decide, by decide, by decide, by decide, by decide⟩
  | .bool false, _ =>
    ⟨102, [97, 108, 115, 101], by decide, by decide, by decide, by decide, by decide⟩
  | .num lit, h => by
    obtain ⟨n, rfl⟩ := h
    obtain ⟨c, cs, hc, hd⟩ := fmtInt_head n
    refine ⟨c, cs, by simp [render, hc], ?_⟩
    rcases hd with rfl | hd
    · decide
    · simp only [isDigit, decide_eq_true_eq] at hd
      simp only [isWS, decide_eq_false_iff_not]
      omega
  | .str s, _ => ⟨34, _, rfl, by decide, by decide, by decide, by decide⟩
  | .arr elems, _ =>
    ⟨91, renderElems elems ++ [93], by simp [render], by decide, by decide, by decide, by decide⟩
  | .obj members, _ =>
    ⟨123, renderMembers members ++ [125], by simp [render], by decide, by decide, by decide,
      by decide⟩

theorem numStop_delim (c : Nat) (x : GoString) (h : c = 44 ∨ c = 93 ∨ c = 125) :
    numStop (c :: x) = true := by
  rcases h with rfl | rfl | rfl <;> simp [numStop, isDigit]

theorem parseValue_null (fuel depth : Nat) (rest : GoString) :
    parseValue (fuel + 1) depth (bytesOf "null" ++ rest) = some (.null, rest) := by
  have : bytesOf "null" = [110, 117, 108, 108] := by decide
  have h2 : bytesOf "ull" = [117, 108, 108] := by decide
  simp [this, h2, parseValue, skipWS, isWS, dropLit, isDigit]

theorem parseValue_true (fuel depth : Nat) (rest : GoString) :
    parseValue (fuel + 1) depth (bytesOf "true" ++ rest) = some (.bool true, rest) := by
  have : bytesOf "true" = [116, 114, 117, 101] := by decide
  have h2 : bytesOf "rue" = [114, 117, 101] := by decide
  simp [this, h2, parseValue, skipWS, isWS, dropLit, isDigit]

theorem parseValue_false (fuel depth : Nat) (rest : GoString) :
    parseValue (fuel + 1) depth (bytesOf "false" ++ rest) = some (.bool false, rest) := by
  have : bytesOf "false" = [102, 97, 108, 115, 101] := by decide
  have h2 : bytesOf "alse" = [97, 108, 115, 101] := by decide
  simp [this, h2, parseValue, skipWS, isWS, dropLit, isDigit]

theorem parseValue_num (fuel depth : Nat) (n : Int) (rest : GoString)
    (hrest : numStop rest = true) :
    parseValue (fuel + 1) depth (fmtInt n ++ rest) = some (.num (fmtInt n), rest) := by
  obtain ⟨c, cs, hc, hd⟩ := fmtInt_head n
  have hscan := scanNumber_fmtInt n rest hrest
  rw [hc] at hscan ⊢
  have hws : isWS c = false := by
    rcases hd with rfl | hd
    · decide
    · simp only [isDigit, decide_eq_true_eq] at hd
      simp only [isWS, decide_eq_false_iff_not]
      omega
  have h34 : ¬ c = 34 := by
    rcases hd with rfl | hd
    · decide
    · simp only [isDigit, decide_eq_true_eq] at hd; omega
  have h91 : ¬ c = 91 := by
    rcases hd with rfl | hd
    · decide
    · simp only [isDigit, decide_eq_true_eq] at hd; omega
  have h123 : ¬ c = 123 := by
    rcases hd with rfl | hd
    · decide
    · simp only [isDigit, decide_eq_true_eq] at hd; omega
  simp only [List.cons_append] at hscan ⊢
  simp only [parseValue, skipWS_cons c _ hws, h34, h91, h123, if_false, hd, if_true, hscan,
    Option.map_some']

theorem parseValue_str (fuel depth : Nat) (s : GoString) (hs : ValidUTF8 s) (rest : GoString) :
    parseValue (fuel + 1) depth (appendString s ++ rest) = some (.str s, rest) := by
  obtain ⟨raw, hraw, hscan, hunq⟩ := scan_unquote_appendString s hs rest
  rw [hraw]
  have hws : isWS 34 = false := by decide
  simp only [parseValue, skipWS_cons 34 _ hws, if_true,
    hscan (raw ++ 34 :: rest).length (by simp), hunq, Option.map_some']

end Todoist

namespace Todoist

theorem renderElems_head (vs : List JSON) (hne : vs ≠ []) (hp : PlainElems vs) :
    ∃ c tl, renderElems vs = c :: tl ∧ isWS c = false ∧ c ≠ 93 := by
  cases vs with
  | nil => exact absurd rfl hne
  | cons v tl =>
    obtain ⟨c, t, hc, h1, h2, _, _⟩ := render_head v hp.1
    cases tl with
    | nil => exact ⟨c, t, by simp [renderElems, hc], h1, h2⟩
    | cons w tl => exact ⟨c, t ++ 44 :: renderElems (w :: tl), by simp [renderElems, hc], h1, h2⟩

theorem renderMembers_head (ms : List (GoString × JSON)) (hne : ms ≠ []) :
    ∃ tl, renderMembers ms = 34 :: tl := by
  cases ms with
  | nil => exact absurd rfl hne
  | cons m tl =>
    obtain ⟨k, v⟩ := m
    cases tl with
    | nil => exact ⟨_, by simp [renderMembers, appendString]; rfl⟩
    | cons w tl => exact ⟨_, by simp [renderMembers, appendString]; rfl⟩

theorem parseValue_arr_step (fuel depth : Nat) (x : GoString) (h : depth < maxNestingDepth) :
    parseValue (fuel + 1) depth (91 :: x) =
      (match skipWS x with
        | [] => none
        | c1 :: rest1 =>
          if c1 = 93 then some (.arr [], rest1)
          else (parseElems fuel (depth + 1) (c1 :: rest1)).map fun p => (.arr p.1, p.2)) := by
  have hws : isWS 91 = false := by decide
  have hd : ¬ maxNestingDepth ≤ depth := by omega
  simp only [parseValue, skipWS_cons 91 _ hws, hd, if_false, if_true]
  simp

theorem parseValue_obj_step (fuel depth : Nat) (x : GoString) (h : depth < maxNestingDepth) :
    parseValue (fuel + 1) depth (123 :: x) =
      (match skipWS x with
        | [] => none
        | c1 :: rest1 =>
          if c1 = 125 then some (.obj [], rest1)
          else (parseMembers fuel (depth + 1) (c1 :: rest1)).map fun p => (.obj p.1, p.2)) := by
  have hws : isWS 123 = false := by decide
  have hd : ¬ maxNestingDepth ≤ depth := by omega
  simp only [parseValue, skipWS_cons 123 _ hws, hd, if_false, if_true]
  simp

theorem parseElems_step (fuel depth : Nat) (input : GoString) (v : JSON) (c : Nat)
    (rest1 : GoString) (hv : parseValue fuel depth input = some (v, c :: rest1))
    (hc : c = 44 ∨ c = 93) :
    parseElems (fuel + 1) depth input =
      if c = 44 then (parseElems fuel depth rest1).map fun p => (v :: p.1, p.2)
      else some ([v], rest1) := by
  have hws : isWS c = false := by rcases hc with rfl | rfl <;> decide
  simp only [parseElems, hv, skipWS_cons c _ hws]
  rcases hc with rfl | rfl <;> simp

theorem parseMembers_step (fuel depth : Nat) (k raw : GoString) (x : GoString) (v : JSON)
    (c : Nat) (rest4 : GoString)
    (hscan : scanString (raw ++ 34 :: 58 :: x).length (raw ++ 34 :: 58 :: x) = some (raw, 58 :: x))
    (hunq : unquote raw = some k)
    (hv : parseValue fuel depth x = some (v, c :: rest4)) (hc : c = 44 ∨ c = 125) :
    parseMembers (fuel + 1) depth (34 :: (raw ++ 34 :: 58 :: x)) =
      if c = 44 then (parseMembers fuel depth rest4).map fun p => ((k, v) :: p.1, p.2)
      else some ([(k, v)], rest4) := by
  have hws : isWS c = false := by rcases hc with rfl | rfl <;> decide
  have hws34 : isWS 34 = false := by decide
  have hws58 : isWS 58 = false := by decide
  simp only [parseMembers, skipWS_cons 34 _ hws34, if_true, hscan, hunq, skipWS_cons 58 _ hws58,
    hv, skipWS_cons c _ hws]
  rcases hc with rfl | rfl <;> simp

mutual
theorem parseValue_render : ∀ (v : JSON), v.Plain → ∀ (fuel depth : Nat) (rest : GoString),
    v.size ≤ fuel → depth + v.height ≤ maxNestingDepth → numStop rest = true →
    parseValue fuel depth (render v ++ rest) = some (v, rest)
  | .null, _, fuel, depth, rest, hf, _, _ => by
    obtain ⟨f, rfl⟩ : ∃ f, fuel = f + 1 := ⟨fuel - 1, by simp [JSON.size] at hf; omega⟩
    exact parseValue_null f depth rest
  | .bool true, _, fuel, depth, rest, hf, _, _ => by
    obtain ⟨f, rfl⟩ : ∃ f, fuel = f + 1 := ⟨fuel - 1, by simp [JSON.size] at hf; omega⟩
    exact parseValue_true f depth rest
  | .bool false, _, fuel, depth, rest, hf, _, _ => by
    obtain ⟨f, rfl⟩ : ∃ f, fuel = f + 1 := ⟨fuel - 1, by simp [JSON.size] at hf; omega⟩
    exact parseValue_false f depth rest
  | .num lit, hp, fuel, depth, rest, hf, _, hr => by
    obtain ⟨f, rfl⟩ : ∃ f, fuel = f + 1 := ⟨fuel - 1, by simp [JSON.size] at hf; omega⟩
    obtain ⟨n, rfl⟩ := hp
    exact parseValue_num f depth n rest hr
  | .str s, hp, fuel, depth, rest, hf, _, _ => by
    obtain ⟨f, rfl⟩ : ∃ f, fuel = f + 1 := ⟨fuel - 1, by simp [JSON.size] at hf; omega⟩
    exact parseValue_str f depth s hp rest
  | .arr elems, hp, fuel, depth, rest, hf, hd, _ => by
    have ih := parseElems_render elems
    simp only [JSON.size, JSON.height] at hf hd
    obtain ⟨f, rfl⟩ : ∃ f, fuel = f + 1 := ⟨fuel - 1, by omega⟩
    have hrw : render (.arr elems) ++ rest = 91 :: (renderElems elems ++ 93 :: rest) := by
      simp [render]
    rw [hrw, parseValue_arr_step f depth _ (by omega)]
    by_cases hne : elems = []
    · subst hne
      have hws : isWS 93 = false := by decide
      simp [renderElems, skipWS_cons 93 _ hws]
    · obtain ⟨c, tl, hc, hws, h93⟩ := renderElems_head elems hne hp
      have h := ih hp hne f (depth + 1) rest (by omega) (by omega)
      rw [hc] at h ⊢
      simp only [List.cons_append] at h ⊢
      simp only [skipWS_cons c _ hws, h93, if_false, h, Option.map_some']
  | .obj members, hp, fuel, depth, rest, hf, hd, _ => by
    have ih := parseMembers_render members
    simp only [JSON.size, JSON.height] at hf hd
    obtain ⟨f, rfl⟩ : ∃ f, fuel = f + 1 := ⟨fuel - 1, by omega⟩
    have hrw : render (.obj members) ++ rest = 123 :: (renderMembers members ++ 125 :: rest) := by
      simp [render]
    rw [hrw, parseValue_obj_step f depth _ (by omega)]
    by_cases hne : members = []
    · subst hne
      have hws : isWS 125 = false := by decide
      simp [renderMembers, skipWS_cons 125 _ hws]
    · obtain ⟨tl, hc⟩ := renderMembers_head members hne
      have h := ih hp hne f (depth + 1) rest (by omega) (by omega)
      rw [hc] at h ⊢
      have hws : isWS 34 = false := by decide
      simp only [List.cons_append] at h ⊢
      simp only [skipWS_cons 34 _ hws, h, Option.map_some']
      simp
theorem parseElems_render : ∀ (vs : List JSON), PlainElems vs → vs ≠ [] →
    ∀ (fuel depth : Nat) (rest : GoString),
    sizeElems vs ≤ fuel → depth + heightElems vs ≤ maxNestingDepth →
    parseElems fuel depth (renderElems vs ++ 93 :: rest) = some (vs, rest)
  | [], _, hne, _, _, _, _, _ => absurd rfl hne
  | v :: tl, hp, _, fuel, depth, rest, hf, hd => by
    have ihv := parseValue_render v hp.1
    have iht := parseElems_render tl hp.2
    simp only [sizeElems, heightElems] at hf hd
    obtain ⟨f, rfl⟩ : ∃ f, fuel = f + 1 := ⟨fuel - 1, by omega⟩
    cases tl with
    | nil =>
      have hv := ihv f depth (93 :: rest) (by omega) (by omega) (numStop_delim 93 _ (by simp))
      rw [show renderElems [v] ++ 93 :: rest = render v ++ 93 :: rest by simp [renderElems],
        parseElems_step f depth _ v 93 rest hv (Or.inr rfl)]
      simp
    | cons w tl =>
      have hv := ihv f depth (44 :: (renderElems (w :: tl) ++ 93 :: rest)) (by omega) (by omega)
        (numStop_delim 44 _ (by simp))
      rw [show renderElems (v :: w :: tl) ++ 93 :: rest =
          render v ++ 44 :: (renderElems (w :: tl) ++ 93 :: rest) by simp [renderElems],
        parseElems_step f depth _ v 44 _ hv (Or.inl rfl),
        iht (by simp) f depth rest (by omega) (by omega)]
      simp
theorem parseMembers_render : ∀ (ms : List (GoString × JSON)), PlainMembers ms → ms ≠ [] →
    ∀ (fuel depth : Nat) (rest : GoString),
    sizeMembers ms ≤ fuel → depth + heightMembers ms ≤ maxNestingDepth →
    parseMembers fuel depth (renderMembers ms ++ 125 :: rest) = some (ms, rest)
  | [], _, hne, _, _, _, _, _ => absurd rfl hne
  | (k, v) :: tl, hp, _, fuel, depth, rest, hf, hd => by
    have ihv := parseValue_render v hp.2.1
    have iht := parseMembers_render tl hp.2.2
    simp only [sizeMembers, heightMembers] at hf hd
    obtain ⟨f, rfl⟩ : ∃ f, fuel = f + 1 := ⟨fuel - 1, by omega⟩
    cases tl with
    | nil =>
      have hv := ihv f depth (125 :: rest) (by omega) (by omega) (numStop_delim 125 _ (by simp))
      obtain ⟨raw, hraw, hscan, hunq⟩ :=
        scan_unquote_appendString k hp.1 (58 :: (render v ++ 125 :: rest))
      rw [show renderMembers [(k, v)] ++ 125 :: rest =
          appendString k ++ 58 :: (render v ++ 125 :: rest) by simp [renderMembers], hraw,
        parseMembers_step f depth k raw _ v 125 rest (hscan _ (by simp)) hunq hv (Or.inr rfl)]
      simp
    | cons w tl =>
      have hv := ihv f depth (44 :: (renderMembers (w :: tl) ++ 125 :: rest)) (by omega)
        (by omega) (numStop_delim 44 _ (by simp))
      obtain ⟨raw, hraw, hscan, hunq⟩ := scan_unquote_appendString k hp.1
        (58 :: (render v ++ 44 :: (renderMembers (w :: tl) ++ 125 :: rest)))
      rw [show renderMembers ((k, v) :: w :: tl) ++ 125 :: rest =
          appendString k ++ 58 :: (render v ++ 44 :: (renderMembers (w :: tl) ++ 125 :: rest)) by
            simp [renderMembers], hraw,
        parseMembers_step f depth k raw _ v 44 _ (hscan _ (by simp)) hunq hv (Or.inl rfl),
        iht (by simp) f depth rest (by omega) (by omega)]
      simp
end

end Todoist

namespace Todoist

theorem fmtInt_length_pos (n : Int) : 0 < (fmtInt n).length := by
  obtain ⟨c, cs, hc, _⟩ := fmtInt_head n
  simp [hc]

mutual
theorem size_le_render : ∀ (v : JSON), v.Plain → v.size ≤ (render v).length
  | .null, _ => by decide
  | .bool true, _ => by decide
  | .bool false, _ => by decide
  | .num lit, hp => by
    obtain ⟨n, rfl⟩ := hp
    simpa [JSON.size, render] using fmtInt_length_pos n
  | .str s, _ => by simp [JSON.size, render, appendString]
  | .arr elems, hp => by
    have := sizeElems_le_render elems hp
    simp only [JSON.size, render, List.length_cons, List.length_append, List.length_nil]
    omega
  | .obj members, hp => by
    have := sizeMembers_le_render members hp
    simp only [JSON.size, render, List.length_cons, List.length_append, List.length_nil]
    omega
theorem sizeElems_le_render : ∀ (vs : List JSON), PlainElems vs →
    sizeElems vs ≤ (renderElems vs).length + 1
  | [], _ => by simp [sizeElems]
  | v :: tl, hp => by
    have h1 := size_le_render v hp.1
    have h2 := sizeElems_le_render tl hp.2
    cases tl with
    | nil => simp only [sizeElems, renderElems]; omega
    | cons w tl =>
      simp only [sizeElems, renderElems, List.length_cons, List.length_append] at h2 ⊢
      omega
theorem sizeMembers_le_render : ∀ (ms : List (GoString × JSON)), PlainMembers ms →
    sizeMembers ms ≤ (renderMembers ms).length + 1
  | [], _ => by simp [sizeMembers]
  | (k, v) :: tl, hp => by
    have h1 := size_le_render v hp.2.1
    have h2 := sizeMembers_le_render tl hp.2.2
    cases tl with
    | nil =>
      simp only [sizeMembers, renderMembers, List.length_cons, List.length_append]; omega
    | cons w tl =>
      simp only [sizeMembers, renderMembers, List.length_cons, List.length_append] at h2 ⊢
      omega
end

/-- The parser reads the text written for a plain value back as that value. -/
theorem parseJSON_render (v : JSON) (hp : v.Plain) (hh : v.height ≤ maxNestingDepth) :
    parseJSON (render v) = some v := by
  have h := parseValue_render v hp (2 * (render v).length + 2) 0 []
    (by have := size_le_render v hp; omega) (by omega) rfl
  rw [List.append_nil] at h
  simp [parseJSON, h, skipWS]

theorem validUTF8_bytesOf (s : String) : ValidUTF8 (bytesOf s) := by
  refine ⟨s.data.map Char.toNat, ?_, ?_⟩
  · intro r hr
    obtain ⟨c, _, rfl⟩ := List.mem_map.mp hr
    have hv := c.valid
    simp only [UInt32.isValidChar, Nat.isValidChar] at hv
    unfold isScalar
    show c.val.toNat < 0xD800 ∨ (0xE000 ≤ c.val.toNat ∧ c.val.toNat < 0x110000)
    omega
  · simp only [bytesOf, List.flatMap_def, List.map_map]
    rfl

theorem validUTF8_nil : ValidUTF8 [] := ⟨[], by simp, rfl⟩

end Todoist

namespace Todoist

/-! ## Decoding undoes encoding on the records of the package -/

theorem decodeInt_fmtInt (old n : Int) (h : isInt64 n) :
    decodeInt old (.num (fmtInt n)) = (n, false) := by
  simp [decodeInt, parseIntLit_fmtInt, h]

theorem decodeIntSlice_encode (old xs : Option (List Int)) (h : ∀ n ∈ xs.getD [], isInt64 n) :
    decodeIntSlice old (encodeIntSlice xs) = (xs, false) := by
  cases xs with
  | none => rfl
  | some l =>
    simp only [Option.getD_some] at h
    simp only [encodeIntSlice, decodeIntSlice, List.map_map, Prod.mk.injEq, Option.some.injEq,
      List.any_eq_false, List.mem_map]
    constructor
    · conv_rhs => rw [← List.map_id l]
      apply List.map_congr_left
      intro n hn
      simp [decodeInt_fmtInt 0 n (h n hn)]
    · rintro v ⟨n, hn, rfl⟩
      simp [decodeInt_fmtInt 0 n (h n hn)]

theorem Project_setField_id (p : Project) (v : JSON) :
    p.setField (bytesOf "id") v =
      ({ p with ID := (decodeInt p.ID v).1 }, (decodeInt p.ID v).2) := by
  have h : findField Project.tags (bytesOf "id") = some 0 := by decide
  simp [Project.setField, h]

theorem Project_setField_color (p : Project) (v : JSON) :
    p.setField (bytesOf "color") v =
      ({ p with Color := (decodeInt p.Color v).1 }, (decodeInt p.Color v).2) := by
  have h : findField Project.tags (bytesOf "color") = some 1 := by decide
  simp [Project.setField, h]

theorem Project_setField_order (p : Project) (v : JSON) :
    p.setField (bytesOf "order") v =
      ({ p with Order := (decodeInt p.Order v).1 }, (decodeInt p.Order v).2) := by
  have h : findField Project.tags (bytesOf "order") = some 2 := by decide
  simp [Project.setField, h]

theorem Project_setField_name (p : Project) (v : JSON) :
    p.setField (bytesOf "name") v =
      ({ p with Name := (decodeString p.Name v).1 }, (decodeString p.Name v).2) := by
  have h : findField Project.tags (bytesOf "name") = some 3 := by decide
  simp [Project.setField, h]

theorem Project_setField_comment_count (p : Project) (v : JSON) :
    p.setField (bytesOf "comment_count") v =
      ({ p with CommentCount := (decodeInt p.CommentCount v).1 }, (decodeInt p.CommentCount v).2) := by
  have h : findField Project.tags (bytesOf "comment_count") = some 4 := by decide
  simp [Project.setField, h]

theorem Project_setField_shared (p : Project) (v : JSON) :
    p.setField (bytesOf "shared") v =
      ({ p with Shared := (decodeBool p.Shared v).1 }, (decodeBool p.Shared v).2) := by
  have h : findField Project.tags (bytesOf "shared") = some 5 := by decide
  simp [Project.setField, h]

theorem Project_setField_favourite (p : Project) (v : JSON) :
    p.setField (bytesOf "favourite") v =
      ({ p with Favorite := (decodeBool p.Favorite v).1 }, (decodeBool p.Favorite v).2) := by
  have h : findField Project.tags (bytesOf "favourite") = some 6 := by decide
  simp [Project.setField, h]

theorem Project_setField_sync_id (p : Project) (v : JSON) :
    p.setField (bytesOf "sync_id") v =
      ({ p with SyncId := (decodeInt p.SyncId v).1 }, (decodeInt p.SyncId v).2) := by
  have h : findField Project.tags (bytesOf "sync_id") = some 7 := by decide
  simp [Project.setField, h]

theorem Project_setField_inbox_project (p : Project) (v : JSON) :
    p.setField (bytesOf "inbox_project") v =
      ({ p with InboxProject := (decodeBool p.InboxProject v).1 }, (decodeBool p.InboxProject v).2) := by
  have h : findField Project.tags (bytesOf "inbox_project") = some 8 := by decide
  simp [Project.setField, h]

theorem Project_setField_url (p : Project) (v : JSON) :
    p.setField (bytesOf "url") v =
      ({ p with Url := (decodeString p.Url v).1 }, (decodeString p.Url v).2) := by
  have h : findField Project.tags (bytesOf "url") = some 9 := by decide
  simp [Project.setField, h]

theorem DueObject_setField_string (d : DueObject) (v : JSON) :
    d.setField (bytesOf "string") v =
      ({ d with String := (decodeString d.String v).1 }, (decodeString d.String v).2) := by
  have h : findField DueObject.tags (bytesOf "string") = some 0 := by decide
  simp [DueObject.setField, h]

theorem DueObject_setField_date (d : DueObject) (v : JSON) :
    d.setField (bytesOf "date") v =
      ({ d with Date := (decodeString d.Date v).1 }, (decodeString d.Date v).2) := by
  have h : findField DueObject.tags (bytesOf "date") = some 1 := by decide
  simp [DueObject.setField, h]

theorem DueObject_setField_recurring (d : DueObject) (v : JSON) :
    d.setField (bytesOf "recurring") v =
      ({ d with Recurring := (decodeBool d.Recurring v).1 }, (decodeBool d.Recurring v).2) := by
  have h : findField DueObject.tags (bytesOf "recurring") = some 2 := by decide
  simp [DueObject.setField, h]

theorem DueObject_setField_datetime (d : DueObject) (v : JSON) :
    d.setField (bytesOf "datetime") v =
      ({ d with Datetime := (decodeString d.Datetime v).1 }, (decodeString d.Datetime v).2) := by
  have h : findField DueObject.tags (bytesOf "datetime") = some 3 := by decide
  simp [DueObject.setField, h]

theorem DueObject_setField_timezone (d : DueObject) (v : JSON) :
    d.setField (bytesOf "timezone") v =
      ({ d with Timezone := (decodeString d.Timezone v).1 }, (decodeString d.Timezone v).2) := by
  have h : findField DueObject.tags (bytesOf "timezone") = some 4 := by decide
  simp [DueObject.setField, h]

theorem Task_setField_id (t : Task) (v : JSON) :
    t.setField (bytesOf "id") v =
      ({ t with ID := (decodeInt t.ID v).1 }, (decodeInt t.ID v).2) := by
  have h : findField Task.tags (bytesOf "id") = some 0 := by decide
  simp [Task.setField, h]

theorem Task_setField_project_id (t : Task) (v : JSON) :
    t.setField (bytesOf "project_id") v =
      ({ t with ProjectID := (decodeInt t.ProjectID v).1 }, (decodeInt t.ProjectID v).2) := by
  have h : findField Task.tags (bytesOf "project_id") = some 1 := by decide
  simp [Task.setField, h]

theorem Task_setField_section_id (t : Task) (v : JSON) :
    t.setField (bytesOf "section_id") v =
      ({ t with SectionID := (decodeInt t.SectionID v).1 }, (decodeInt t.SectionID v).2) := by
  have h : findField Task.tags (bytesOf "section_id") = some 2 := by decide
  simp [Task.setField, h]

theorem Task_setField_content (t : Task) (v : JSON) :
    t.setField (bytesOf "content") v =
      ({ t with Content := (decodeString t.Content v).1 }, (decodeString t.Content v).2) := by
  have h : findField Task.tags (bytesOf "content") = some 3 := by decide
  simp [Task.setField, h]

theorem Task_setField_description (t : Task) (v : JSON) :
    t.setField (bytesOf "description") v =
      ({ t with Description := (decodeString t.Description v).1 }, (decodeString t.Description v).2) := by
  have h : findField Task.tags (bytesOf "description") = some 4 := by decide
  simp [Task.setField, h]

theorem Task_setField_completed (t : Task) (v : JSON) :
    t.setField (bytesOf "completed") v =
      ({ t with Completed := (decodeBool t.Completed v).1 }, (decodeBool t.Completed v).2) := by
  have h : findField Task.tags (bytesOf "completed") = some 5 := by decide
  simp [Task.setField, h]

theorem Task_setField_label_ids (t : Task) (v : JSON) :
    t.setField (bytesOf "label_ids") v =
      ({ t with LabelIDs := (decodeIntSlice t.LabelIDs v).1 }, (decodeIntSlice t.LabelIDs v).2) := by
  have h : findField Task.tags (bytesOf "label_ids") = some 6 := by decide
  simp [Task.setField, h]

theorem Task_setField_parent_id (t : Task) (v : JSON) :
    t.setField (bytesOf "parent_id") v =
      ({ t with ParentID := (decodeInt t.ParentID v).1 }, (decodeInt t.ParentID v).2) := by
  have h : findField Task.tags (bytesOf "parent_id") = some 7 := by decide
  simp [Task.setField, h]

theorem Task_setField_order (t : Task) (v : JSON) :
    t.setField (bytesOf "order") v =
      ({ t with Order := (decodeInt t.Order v).1 }, (decodeInt t.Order v).2) := by
  have h : findField Task.tags (bytesOf "order") = some 8 := by decide
  simp [Task.setField, h]

theorem Task_setField_priority (t : Task) (v : JSON) :
    t.setField (bytesOf "priority") v =
      ({ t with Priority := (decodeInt t.Priority v).1 }, (decodeInt t.Priority v).2) := by
  have h : findField Task.tags (bytesOf "priority") = some 9 := by decide
  simp [Task.setField, h]

theorem Task_setField_due (t : Task) (v : JSON) :
    t.setField (bytesOf "due") v =
      ({ t with Due := (decodeStruct DueObject.setField t.Due v).1 }, (decodeStruct DueObject.setField t.Due v).2) := by
  have h : findField Task.tags (bytesOf "due") = some 10 := by decide
  simp [Task.setField, h]

theorem Task_setField_url (t : Task) (v : JSON) :
    t.setField (bytesOf "url") v =
      ({ t with Url := (decodeString t.Url v).1 }, (decodeString t.Url v).2) := by
  have h : findField Task.tags (bytesOf "url") = some 11 := by decide
  simp [Task.setField, h]

theorem Task_setField_comment_count (t : Task) (v : JSON) :
    t.setField (bytesOf "comment_count") v =
      ({ t with CommentCount := (decodeInt t.CommentCount v).1 }, (decodeInt t.CommentCount v).2) := by
  have h : findField Task.tags (bytesOf "comment_count") = some 12 := by decide
  simp [Task.setField, h]

theorem Task_setField_assignee (t : Task) (v : JSON) :
    t.setField (bytesOf "assignee") v =
      ({ t with Assignee := (decodeInt t.Assignee v).1 }, (decodeInt t.Assignee v).2) := by
  have h : findField Task.tags (bytesOf "assignee") = some 13 := by decide
  simp [Task.setField, h]

theorem decodeStruct_Project (q p : Project) (h : p.InRange) :
    decodeStruct Project.setField q p.toJSON = (p, false) := by
  obtain ⟨h1, h2, h3, h4, h5⟩ := h
  simp only [Project.toJSON, decodeStruct, List.foldl_cons, List.foldl_nil, Project_setField_id, Project_setField_color, Project_setField_order, Project_setField_name, Project_setField_comment_count, Project_setField_shared, Project_setField_favourite, Project_setField_sync_id, Project_setField_inbox_project, Project_setField_url,
    decodeInt_fmtInt _ _ h1, decodeInt_fmtInt _ _ h2, decodeInt_fmtInt _ _ h3,
    decodeInt_fmtInt _ _ h4, decodeInt_fmtInt _ _ h5, decodeString, decodeBool, Bool.or_false]

theorem decodeStruct_DueObject (q d : DueObject) :
    decodeStruct DueObject.setField q d.toJSON = (d, false) := by
  simp only [DueObject.toJSON, decodeStruct, List.foldl_cons, List.foldl_nil, DueObject_setField_string, DueObject_setField_date, DueObject_setField_recurring, DueObject_setField_datetime, DueObject_setField_timezone,
    decodeString, decodeBool, Bool.or_false]

theorem decodeStruct_Task (q t : Task) (h : t.InRange) :
    decodeStruct Task.setField q t.toJSON = (t, false) := by
  obtain ⟨h1, h2, h3, h4, h5, h6, h7, h8, h9⟩ := h
  have hd : ∀ q : DueObject, decodeStruct DueObject.setField q t.Due.toJSON = (t.Due, false) :=
    fun q => decodeStruct_DueObject q t.Due
  rw [Task.toJSON]
  generalize t.Due.toJSON = dj at hd
  simp only [decodeStruct, List.foldl_cons, List.foldl_nil, Task_setField_id, Task_setField_project_id, Task_setField_section_id, Task_setField_content, Task_setField_description, Task_setField_completed, Task_setField_label_ids, Task_setField_parent_id, Task_setField_order, Task_setField_priority, Task_setField_due, Task_setField_url, Task_setField_comment_count, Task_setField_assignee,
    decodeInt_fmtInt _ _ h1, decodeInt_fmtInt _ _ h2,
    decodeInt_fmtInt _ _ h3, decodeInt_fmtInt _ _ h4, decodeInt_fmtInt _ _ h5,
    decodeInt_fmtInt _ _ h6, decodeInt_fmtInt _ _ h7, decodeInt_fmtInt _ _ h8,
    decodeIntSlice_encode _ _ h9, decodeString, decodeBool, Bool.or_false]
  have hd2 := hd q.Due
  simp only [decodeStruct] at hd2
  simp only [hd2, Bool.or_false]

end Todoist

namespace Todoist

theorem plainElems_map {α : Type} (f : α → JSON) (xs : List α) (h : ∀ x ∈ xs, (f x).Plain) :
    PlainElems (xs.map f) := by
  induction xs with
  | nil => trivial
  | cons x xs ih =>
    exact ⟨h x (List.mem_cons_self _ _), ih fun y hy => h y (List.mem_cons_of_mem _ hy)⟩

theorem heightElems_map_le {α : Type} (f : α → JSON) (xs : List α) (k : Nat)
    (h : ∀ x ∈ xs, (f x).height ≤ k) : heightElems (xs.map f) ≤ k := by
  induction xs with
  | nil => simp [heightElems]
  | cons x xs ih =>
    simp only [List.map_cons, heightElems]
    exact max_le (h x (List.mem_cons_self _ _)) (ih fun y hy => h y (List.mem_cons_of_mem _ hy))

theorem plain_encodeSlice {α : Type} (f : α → JSON) (xs : Option (List α))
    (h : ∀ x ∈ xs.getD [], (f x).Plain) : (encodeSlice f xs).Plain := by
  cases xs with
  | none => trivial
  | some l => exact plainElems_map f l h

theorem height_encodeSlice {α : Type} (f : α → JSON) (xs : Option (List α)) (k : Nat)
    (h : ∀ x ∈ xs.getD [], (f x).height ≤ k) : (encodeSlice f xs).height ≤ k + 1 := by
  cases xs with
  | none => simp [encodeSlice, JSON.height]
  | some l =>
    have := heightElems_map_le f l k h
    simp only [encodeSlice, JSON.height]
    omega

theorem decodeSlice_encodeSlice {α : Type} (dec : JSON → α × Bool) (enc : α → JSON)
    (old xs : Option (List α)) (h : ∀ x ∈ xs.getD [], dec (enc x) = (x, false)) :
    decodeSlice dec old (encodeSlice enc xs) = (xs, false) := by
  cases xs with
  | none => rfl
  | some l =>
    simp only [Option.getD_some] at h
    simp only [encodeSlice, decodeSlice, List.map_map, Prod.mk.injEq, Option.some.injEq,
      List.any_eq_false, List.mem_map]
    constructor
    · conv_rhs => rw [← List.map_id l]
      apply List.map_congr_left
      intro x hx
      simp [h x hx]
    · rintro v ⟨x, hx, rfl⟩
      simp [h x hx]

theorem plain_obj (ms : List (GoString × JSON)) : (JSON.obj ms).Plain ↔ PlainMembers ms :=
  Iff.rfl

theorem plainMembers_cons (k : GoString) (v : JSON) (ms : List (GoString × JSON)) :
    PlainMembers ((k, v) :: ms) ↔ ValidUTF8 k ∧ v.Plain ∧ PlainMembers ms := Iff.rfl

theorem plainMembers_nil : PlainMembers [] ↔ True := Iff.rfl

theorem plain_num (n : Int) : (JSON.num (fmtInt n)).Plain := ⟨n, rfl⟩

theorem plain_str (s : GoString) : (JSON.str s).Plain ↔ ValidUTF8 s := Iff.rfl

theorem plain_bool (b : Bool) : (JSON.bool b).Plain := trivial

theorem height_obj (ms : List (GoString × JSON)) :
    (JSON.obj ms).height = 1 + heightMembers ms := rfl

theorem heightMembers_cons (k : GoString) (v : JSON) (ms : List (GoString × JSON)) :
    heightMembers ((k, v) :: ms) = max v.height (heightMembers ms) := rfl

theorem heightMembers_nil : heightMembers [] = 0 := rfl

theorem height_num (l : GoString) : (JSON.num l).height = 0 := rfl

theorem height_str (s : GoString) : (JSON.str s).height = 0 := rfl

theorem height_bool (b : Bool) : (JSON.bool b).height = 0 := rfl

theorem plain_Project (p : Project) (h : p.ValidText) : p.toJSON.Plain := by
  have h1 := validUTF8_of_validString _ h.1
  have h2 := validUTF8_of_validString _ h.2
  simp [Project.toJSON, JSON.Plain, PlainMembers, validUTF8_bytesOf, h1, h2]

theorem height_Project (p : Project) : p.toJSON.height = 1 := by
  simp [Project.toJSON, JSON.height, heightMembers]

theorem plain_encodeIntSlice (xs : Option (List Int)) : (encodeIntSlice xs).Plain := by
  cases xs with
  | none => trivial
  | some l => exact plainElems_map _ l fun n _ => ⟨n, rfl⟩

theorem height_encodeIntSlice (xs : Option (List Int)) : (encodeIntSlice xs).height ≤ 1 := by
  cases xs with
  | none => simp [encodeIntSlice, JSON.height]
  | some l =>
    have := heightElems_map_le (fun n : Int => JSON.num (fmtInt n)) l 0
      (fun n _ => by simp [JSON.height])
    simp only [encodeIntSlice, JSON.height]
    omega

theorem plain_DueObject (d : DueObject) (h : d.ValidText) : d.toJSON.Plain := by
  have h1 := validUTF8_of_validString _ h.1
  have h2 := validUTF8_of_validString _ h.2.1
  have h3 := validUTF8_of_validString _ h.2.2.1
  have h4 := validUTF8_of_validString _ h.2.2.2
  simp [DueObject.toJSON, JSON.Plain, PlainMembers, validUTF8_bytesOf, h1, h2, h3, h4]

theorem height_DueObject (d : DueObject) : d.toJSON.height = 1 := by
  simp [DueObject.toJSON, JSON.height, heightMembers]

theorem plain_Task (t : Task) (h : t.ValidText) : t.toJSON.Plain := by
  have h1 := validUTF8_of_validString _ h.1
  have h2 := validUTF8_of_validString _ h.2.1
  have h3 := validUTF8_of_validString _ h.2.2.1
  have h4 := h.2.2.2
  simp only [Task.toJSON, plain_obj, plainMembers_cons, plainMembers_nil, validUTF8_bytesOf,
    plain_num, plain_str, plain_bool, h1, h2, h3, plain_DueObject _ h4, plain_encodeIntSlice,
    and_self]

theorem height_Task (t : Task) : t.toJSON.height ≤ 2 := by
  have h1 := height_encodeIntSlice t.LabelIDs
  have h2 := height_DueObject t.Due
  simp only [Task.toJSON, height_obj, heightMembers_cons, heightMembers_nil, height_num,
    height_str, height_bool, h2]
  omega

theorem Unmarshal_render {α : Type} (store : α → JSON → α × Bool) (v : JSON) (old : α)
    (hp : v.Plain) (hh : v.height ≤ maxNestingDepth) :
    Unmarshal store (render v) old =
      ((store old v).1, if (store old v).2 then some .jsonMismatch else none) := by
  simp [Unmarshal, parseJSON_render v hp hh]

theorem UnmarshalProjects_Marshal (ps old : Option (List Project))
    (hr : ∀ p ∈ ps.getD [], p.InRange) (hv : ∀ p ∈ ps.getD [], p.ValidText) :
    UnmarshalProjects (MarshalProjects ps) old = (ps, none) := by
  have hp := plain_encodeSlice Project.toJSON ps fun p hp => plain_Project p (hv p hp)
  have hh := height_encodeSlice Project.toJSON ps 1 fun p _ => le_of_eq (height_Project p)
  simp only [UnmarshalProjects, MarshalProjects]
  rw [Unmarshal_render _ _ _ hp (by simp only [maxNestingDepth]; omega),
    decodeSlice_encodeSlice _ _ _ _ fun p hp => decodeStruct_Project _ p (hr p hp)]
  rfl

theorem UnmarshalTasks_Marshal (ts old : Option (List Task))
    (hr : ∀ t ∈ ts.getD [], t.InRange) (hv : ∀ t ∈ ts.getD [], t.ValidText) :
    UnmarshalTasks (MarshalTasks ts) old = (ts, none) := by
  have hp := plain_encodeSlice Task.toJSON ts fun t ht => plain_Task t (hv t ht)
  have hh := height_encodeSlice Task.toJSON ts 2 fun t _ => height_Task t
  simp only [UnmarshalTasks, MarshalTasks]
  rw [Unmarshal_render _ _ _ hp (by simp only [maxNestingDepth]; omega),
    decodeSlice_encodeSlice _ _ _ _ fun t ht => decodeStruct_Task _ t (hr t ht)]
  rfl

theorem doHTTP_ok (lib : Lib) (c : Client) (ctx : Context)
    (accessToken method endpoint : GoString) (body : Option GoString) (data : GoString)
    (hb : lib.newRequestError ctx method endpoint = none)
    (hdo : ∀ req, c.client.Do lib req = .ok ⟨200, ⟨data, none⟩⟩) :
    (doHTTP lib c ctx accessToken method endpoint body).val = some data ∧
      (doHTTP lib c ctx accessToken method endpoint body).err = none := by
  rw [doHTTP_of_built _ _ _ _ _ _ _ hb, hdo]
  exact ⟨rfl, rfl⟩

theorem GetProjects_of_body (lib : Lib) (c : Client) (ctx : Context) (accessToken : GoString)
    (data : GoString) (hb : lib.newRequestError ctx MethodGet restProjects = none)
    (hdo : ∀ req, c.client.Do lib req = .ok ⟨200, ⟨data, none⟩⟩) :
    (GetProjects lib c ctx accessToken).val =
        (match UnmarshalProjects data none with
          | (_, some _) => none
          | (projects, none) => projects) ∧
      (GetProjects lib c ctx accessToken).err =
        (UnmarshalProjects data none).2.map (GoError.wrap (bytesOf "unable to decode json response: ")) := by
  obtain ⟨h1, h2⟩ := doHTTP_ok lib c ctx accessToken MethodGet restProjects none data hb hdo
  simp only [GetProjects, h1, h2, Option.getD_some]
  rcases hU : UnmarshalProjects data none with ⟨v, _ | e⟩ <;> simp

theorem GetTasksWithParams_of_body (lib : Lib) (c : Client) (ctx : Context)
    (accessToken paramStr : GoString) (data : GoString)
    (hb : lib.newRequestError ctx MethodGet (restTasks ++ paramStr) = none)
    (hdo : ∀ req, c.client.Do lib req = .ok ⟨200, ⟨data, none⟩⟩) :
    (GetTasksWithParams lib c ctx accessToken paramStr).val =
        (match UnmarshalTasks data none with
          | (_, some _) => none
          | (tasks, none) => tasks) ∧
      (GetTasksWithParams lib c ctx accessToken paramStr).err =
        (UnmarshalTasks data none).2.map (GoError.wrap (bytesOf "unable to decode json response: ")) := by
  obtain ⟨h1, h2⟩ := doHTTP_ok lib c ctx accessToken MethodGet (restTasks ++ paramStr) none data
    hb hdo
  simp only [GetTasksWithParams, h1, h2, Option.getD_some]
  rcases hU : UnmarshalTasks data none with ⟨v, _ | e⟩ <;> simp

end Todoist

namespace Todoist

/-! ## Decode errors are exactly the bodies of another shape -/

theorem decodeInt_flag (old : Int) (v : JSON) : (decodeInt old v).2 = !fitsInt v := by
  cases v <;> simp [decodeInt, fitsInt]
  case num lit =>
    cases parseIntLit lit with
    | none => rfl
    | some n => by_cases h : isInt64 n <;> simp [h]

theorem decodeString_flag (old : GoString) (v : JSON) :
    (decodeString old v).2 = !fitsString v := by
  cases v <;> rfl

theorem decodeBool_flag (old : Bool) (v : JSON) : (decodeBool old v).2 = !fitsBool v := by
  cases v <;> rfl

theorem any_flag_eq {α : Type} (flag fits : α → Bool) (h : ∀ x, flag x = !fits x)
    (xs : List α) : xs.any flag = !xs.all fits := by
  induction xs with
  | nil => rfl
  | cons x xs ih => simp [List.any_cons, List.all_cons, ih, h x, Bool.not_and]

theorem decodeIntSlice_flag (old : Option (List Int)) (v : JSON) :
    (decodeIntSlice old v).2 = !fitsInts v := by
  cases v <;> simp [decodeIntSlice, fitsInts]
  case arr elems =>
    have := any_flag_eq (fun v => (decodeInt 0 v).2) fitsInt (decodeInt_flag 0) elems
    simpa using this

theorem foldl_flag {α : Type} (setField : α → GoString → JSON → α × Bool)
    (flag : GoString → JSON → Bool) (h : ∀ p k v, (setField p k v).2 = flag k v)
    (ms : List (GoString × JSON)) : ∀ (old : α) (b : Bool),
    (ms.foldl (fun acc m => ((setField acc.1 m.1 m.2).1, acc.2 || (setField acc.1 m.1 m.2).2))
      (old, b)).2 = (b || ms.any fun m => flag m.1 m.2) := by
  induction ms with
  | nil => intro old b; simp
  | cons m ms ih =>
    intro old b
    rw [List.foldl_cons, ih]
    simp only [List.any_cons, h, Bool.or_assoc]

theorem decodeStruct_flag {α : Type} (setField : α → GoString → JSON → α × Bool)
    (tags : List GoString) (fitsField : Nat → JSON → Bool)
    (h : ∀ p k v, (setField p k v).2 =
      !(match findField tags k with
        | some i => fitsField i v
        | none => true))
    (old : α) (v : JSON) :
    (decodeStruct setField old v).2 = !fitsObject tags fitsField v := by
  cases v <;> simp [decodeStruct, fitsObject]
  case obj members =>
    rw [foldl_flag setField _ h members old false]
    have := any_flag_eq
      (fun m : GoString × JSON => !(match findField tags m.1 with
        | some i => fitsField i m.2
        | none => true))
      (fun m : GoString × JSON => (match findField tags m.1 with
        | some i => fitsField i m.2
        | none => true)) (fun _ => rfl) members
    simpa using this

theorem Project_setField_flag (p : Project) (k : GoString) (v : JSON) :
    (p.setField k v).2 =
      !(match findField Project.tags k with
        | some i => Project.fitsField i v
        | none => true) := by
  cases hf : findField Project.tags k with
  | none => simp [Project.setField, hf]
  | some i =>
    have hi : i = 0 ∨ i = 1 ∨ i = 2 ∨ i = 3 ∨ i = 4 ∨ i = 5 ∨ i = 6 ∨ i = 7 ∨ i = 8 ∨ i = 9
        ∨ 10 ≤ i := by omega
    rcases hi with rfl | rfl | rfl | rfl | rfl | rfl | rfl | rfl | rfl | rfl | hi
    · simp [Project.setField, hf, Project.fitsField, decodeInt_flag]
    · simp [Project.setField, hf, Project.fitsField, decodeInt_flag]
    · simp [Project.setField, hf, Project.fitsField, decodeInt_flag]
    · simp [Project.setField, hf, Project.fitsField, decodeString_flag]
    · simp [Project.setField, hf, Project.fitsField, decodeInt_flag]
    · simp [Project.setField, hf, Project.fitsField, decodeBool_flag]
    · simp [Project.setField, hf, Project.fitsField, decodeBool_flag]
    · simp [Project.setField, hf, Project.fitsField, decodeInt_flag]
    · simp [Project.setField, hf, Project.fitsField, decodeBool_flag]
    · simp [Project.setField, hf, Project.fitsField, decodeString_flag]
    · obtain ⟨j, rfl⟩ : ∃ j, i = j + 10 := ⟨i - 10, by omega⟩
      simp [Project.setField, hf, Project.fitsField]

theorem DueObject_setField_flag (d : DueObject) (k : GoString) (v : JSON) :
    (d.setField k v).2 =
      !(match findField DueObject.tags k with
        | some i => DueObject.fitsField i v
        | none => true) := by
  cases hf : findField DueObject.tags k with
  | none => simp [DueObject.setField, hf]
  | some i =>
    have hi : i = 0 ∨ i = 1 ∨ i = 2 ∨ i = 3 ∨ i = 4 ∨ 5 ≤ i := by omega
    rcases hi with rfl | rfl | rfl | rfl | rfl | hi
    · simp [DueObject.setField, hf, DueObject.fitsField, decodeString_flag]
    · simp [DueObject.setField, hf, DueObject.fitsField, decodeString_flag]
    · simp [DueObject.setField, hf, DueObject.fitsField, decodeBool_flag]
    · simp [DueObject.setField, hf, DueObject.fitsField, decodeString_flag]
    · simp [DueObject.setField, hf, DueObject.fitsField, decodeString_flag]
    · obtain ⟨j, rfl⟩ : ∃ j, i = j + 5 := ⟨i - 5, by omega⟩
      simp [DueObject.setField, hf, DueObject.fitsField]

theorem Task_setField_flag (t : Task) (k : GoString) (v : JSON) :
    (t.setField k v).2 =
      !(match findField Task.tags k with
        | some i => Task.fitsField i v
        | none => true) := by
  have hdue := decodeStruct_flag DueObject.setField DueObject.tags DueObject.fitsField
    DueObject_setField_flag t.Due v
  cases hf : findField Task.tags k with
  | none => simp [Task.setField, hf]
  | some i =>
    have hi : i = 0 ∨ i = 1 ∨ i = 2 ∨ i = 3 ∨ i = 4 ∨ i = 5 ∨ i = 6 ∨ i = 7 ∨ i = 8 ∨ i = 9
        ∨ i = 10 ∨ i = 11 ∨ i = 12 ∨ i = 13 ∨ 14 ≤ i := by omega
    rcases hi with rfl | rfl | rfl | rfl | rfl | rfl | rfl | rfl | rfl | rfl | rfl | rfl | rfl
      | rfl | hi
    · simp [Task.setField, hf, Task.fitsField, decodeInt_flag]
    · simp [Task.setField, hf, Task.fitsField, decodeInt_flag]
    · simp [Task.setField, hf, Task.fitsField, decodeInt_flag]
    · simp [Task.setField, hf, Task.fitsField, decodeString_flag]
    · simp [Task.setField, hf, Task.fitsField, decodeString_flag]
    · simp [Task.setField, hf, Task.fitsField, decodeBool_flag]
    · simp [Task.setField, hf, Task.fitsField, decodeIntSlice_flag]
    · simp [Task.setField, hf, Task.fitsField, decodeInt_flag]
    · simp [Task.setField, hf, Task.fitsField, decodeInt_flag]
    · simp [Task.setField, hf, Task.fitsField, decodeInt_flag]
    · simp [Task.setField, hf, Task.fitsField, hdue]
    · simp [Task.setField, hf, Task.fitsField, decodeString_flag]
    · simp [Task.setField, hf, Task.fitsField, decodeInt_flag]
    · simp [Task.setField, hf, Task.fitsField, decodeInt_flag]
    · obtain ⟨j, rfl⟩ : ∃ j, i = j + 14 := ⟨i - 14, by omega⟩
      simp [Task.setField, hf, Task.fitsField]

theorem decodeSlice_flag {α : Type} (decodeElem : JSON → α × Bool) (fitsElem : JSON → Bool)
    (h : ∀ v, (decodeElem v).2 = !fitsElem v) (old : Option (List α)) (v : JSON) :
    (decodeSlice decodeElem old v).2 = !fitsSlice fitsElem v := by
  cases v <;> simp [decodeSlice, fitsSlice]
  case arr elems =>
    have := any_flag_eq (fun v => (decodeElem v).2) fitsElem h elems
    simpa using this

theorem UnmarshalProjects_err (data : GoString) (old : Option (List Project)) :
    (UnmarshalProjects data old).2 =
      if projectsShape data = true then none
      else if (parseJSON data).isNone = true then some .jsonMalformed else some .jsonMismatch := by
  cases hp : parseJSON data with
  | none => simp [UnmarshalProjects, Unmarshal, projectsShape, hp]
  | some v =>
    simp only [UnmarshalProjects, Unmarshal, projectsShape, hp]
    have := decodeSlice_flag (decodeStruct Project.setField Project.zero)
      (fitsObject Project.tags Project.fitsField)
      (decodeStruct_flag Project.setField Project.tags Project.fitsField Project_setField_flag
        Project.zero) old v
    simp only [this]
    cases fitsSlice (fitsObject Project.tags Project.fitsField) v <;> simp

theorem UnmarshalTasks_err (data : GoString) (old : Option (List Task)) :
    (UnmarshalTasks data old).2 =
      if tasksShape data = true then none
      else if (parseJSON data).isNone = true then some .jsonMalformed else some .jsonMismatch := by
  cases hp : parseJSON data with
  | none => simp [UnmarshalTasks, Unmarshal, tasksShape, hp]
  | some v =>
    simp only [UnmarshalTasks, Unmarshal, tasksShape, hp]
    have := decodeSlice_flag (decodeStruct Task.setField Task.zero)
      (fitsObject Task.tags Task.fitsField)
      (decodeStruct_flag Task.setField Task.tags Task.fitsField Task_setField_flag
        Task.zero) old v
    simp only [this]
    cases fitsSlice (fitsObject Task.tags Task.fitsField) v <;> simp

end Todoist

namespace Todoist

/-! ## The fuel of the recursive definitions is never what decides -/

theorem scanString_fuel (f : Nat) : ∀ (x : GoString) (g : Nat), x.length ≤ f → x.length ≤ g →
    scanString f x = scanString g x := by
  induction f with
  | zero =>
    intro x g hf _
    cases x with
    | nil => cases g <;> rfl
    | cons c rest => simp at hf
  | succ f ih =>
    intro x g hf hg
    cases x with
    | nil => cases g <;> rfl
    | cons c rest =>
      obtain ⟨g', rfl⟩ : ∃ g', g = g' + 1 := ⟨g - 1, by simp at hg; omega⟩
      simp only [List.length_cons] at hf hg
      have h1 := ih rest g' (by omega) (by omega)
      simp only [scanString, h1]
      split_ifs
      · rfl
      · rcases rest with _ | ⟨e, rest1⟩
        · rfl
        · simp only [List.length_cons] at hf hg
          have h2 := ih rest1 g' (by omega) (by omega)
          simp only [h2]
          split_ifs
          · rcases rest1 with _ | ⟨a, _ | ⟨b, _ | ⟨c', _ | ⟨d, rest2⟩⟩⟩⟩ <;> try rfl
            simp only [List.length_cons] at hf hg
            have h3 := ih rest2 g' (by omega) (by omega)
            simp only [h3]
          · rfl
          · rfl
      · rfl
      · rfl

theorem scanString_consumes (f : Nat) : ∀ (x raw r : GoString),
    scanString f x = some (raw, r) → r.length < x.length := by
  induction f with
  | zero => intro x raw r h; simp [scanString] at h
  | succ f ih =>
    intro x raw r h
    have step : ∀ (y : GoString) (g : GoString × GoString → GoString),
        (Option.map (fun p => (g p, p.2)) (scanString f y)) = some (raw, r) →
        r.length < y.length := by
      intro y g hy
      simp only [Option.map_eq_some', Prod.mk.injEq] at hy
      obtain ⟨p, hs, _, rfl⟩ := hy
      exact ih y p.1 p.2 hs
    cases x with
    | nil => simp [scanString] at h
    | cons c rest =>
      by_cases h1 : c = 34
      · simp only [scanString, h1, if_true, Option.some.injEq, Prod.mk.injEq] at h
        obtain ⟨_, rfl⟩ := h
        simp
      by_cases h2 : c = 92
      · rcases rest with _ | ⟨e, rest1⟩
        · simp [scanString, h1, h2] at h
        by_cases h3 : e = 117
        · rcases rest1 with _ | ⟨a, _ | ⟨b, _ | ⟨c', _ | ⟨d, rest2⟩⟩⟩⟩
          · simp [scanString, h2, h3] at h
          · simp [scanString, h2, h3] at h
          · simp [scanString, h2, h3] at h
          · simp [scanString, h2, h3] at h
          · by_cases h4 : isHex a = true ∧ isHex b = true ∧ isHex c' = true ∧ isHex d = true
            · have := step rest2
                (fun p => 92 :: 117 :: a :: b :: c' :: d :: p.1)
                (by simpa only [scanString, h1, h2, h3, h4, and_self, if_true, if_false,
                  reduceCtorEq] using h)
              simp only [List.length_cons]
              omega
            · simp [scanString, h2, h3, h4] at h
        · by_cases h5 : e = 34 ∨ e = 92 ∨ e = 47 ∨ e = 98 ∨ e = 102 ∨ e = 110 ∨ e = 114 ∨ e = 116
          · have := step rest1 (fun p => 92 :: e :: p.1)
              (by simpa only [scanString, h1, h2, h3, h5, if_true, if_false] using h)
            simp only [List.length_cons]
            omega
          · simp [scanString, h2, h3, h5] at h
      by_cases h3 : c < 32
      · simp [scanString, h1, h2, h3] at h
      · have := step rest (fun p => c :: p.1)
          (by simpa only [scanString, h1, h2, h3, if_true, if_false] using h)
        simp only [List.length_cons]
        omega

theorem unquoteAux_fuel (f : Nat) : ∀ (x : GoString) (g : Nat), x.length ≤ f → x.length ≤ g →
    unquoteAux f x = unquoteAux g x := by
  induction f with
  | zero =>
    intro x g hf _
    cases x with
    | nil => cases g <;> rfl
    | cons c rest => simp at hf
  | succ f ih =>
    intro x g hf hg
    cases x with
    | nil => cases g <;> rfl
    | cons c rest =>
      obtain ⟨g', rfl⟩ : ∃ g', g = g' + 1 := ⟨g - 1, by simp at hg; omega⟩
      simp only [List.length_cons] at hf hg
      have hd : ∀ k, unquoteAux f (rest.drop k) = unquoteAux g' (rest.drop k) := fun k =>
        ih _ g' (by simp only [List.length_drop]; omega) (by simp only [List.length_drop]; omega)
      have h0 : unquoteAux f rest = unquoteAux g' rest := by simpa using hd 0
      rcases rest with _ | ⟨e, rest1⟩
      · simp only [unquoteAux, h0, hd]
      · simp only [List.length_cons] at hf hg
        have hd1 : ∀ k, unquoteAux f (rest1.drop k) = unquoteAux g' (rest1.drop k) := fun k =>
          ih _ g' (by simp only [List.length_drop]; omega) (by simp only [List.length_drop]; omega)
        have h1 : unquoteAux f rest1 = unquoteAux g' rest1 := by simpa using hd1 0
        simp only [unquoteAux, h0, h1, hd, hd1]

theorem quoteAux_fuel (f : Nat) : ∀ (x : GoString) (g : Nat), x.length ≤ f → x.length ≤ g →
    quoteAux f x = quoteAux g x := by
  induction f with
  | zero =>
    intro x g hf _
    cases x with
    | nil => cases g <;> rfl
    | cons c rest => simp at hf
  | succ f ih =>
    intro x g hf hg
    cases x with
    | nil => cases g <;> rfl
    | cons c rest =>
      obtain ⟨g', rfl⟩ : ∃ g', g = g' + 1 := ⟨g - 1, by simp at hg; omega⟩
      simp only [List.length_cons] at hf hg
      have hd : ∀ k, quoteAux f (rest.drop k) = quoteAux g' (rest.drop k) := fun k =>
        ih _ g' (by simp only [List.length_drop]; omega) (by simp only [List.length_drop]; omega)
      have h0 : quoteAux f rest = quoteAux g' rest := by simpa using hd 0
      simp only [quoteAux, h0, hd]

theorem utf8Valid_fuel (f : Nat) : ∀ (x : GoString) (g : Nat), x.length ≤ f → x.length ≤ g →
    utf8Valid f x = utf8Valid g x := by
  induction f with
  | zero =>
    intro x g hf _
    cases x with
    | nil => cases g <;> rfl
    | cons c rest => simp at hf
  | succ f ih =>
    intro x g hf hg
    cases x with
    | nil => cases g <;> rfl
    | cons c rest =>
      obtain ⟨g', rfl⟩ : ∃ g', g = g' + 1 := ⟨g - 1, by simp at hg; omega⟩
      simp only [List.length_cons] at hf hg
      have hd : ∀ k, utf8Valid f (rest.drop k) = utf8Valid g' (rest.drop k) := fun k =>
        ih _ g' (by simp only [List.length_drop]; omega) (by simp only [List.length_drop]; omega)
      simp only [utf8Valid, hd]

theorem skipWS_length (x : GoString) : (skipWS x).length ≤ x.length := by
  induction x with
  | nil => simp [skipWS]
  | cons c rest ih =>
    simp only [skipWS]
    split_ifs
    · simp only [List.length_cons]; omega
    · exact le_refl _

theorem scanNumber_consumes : ∀ (x : GoString) (s : NumState) (lit r : GoString),
    scanNumber s x = some (lit, r) →
      lit.length + r.length = x.length ∧ (s.accepting = false → lit ≠ []) := by
  intro x
  induction x with
  | nil =>
    intro s lit r h
    simp only [scanNumber] at h
    split_ifs at h with ha
    · simp only [Option.some.injEq, Prod.mk.injEq] at h
      obtain ⟨rfl, rfl⟩ := h
      exact ⟨rfl, fun hf => by simp [ha] at hf⟩
  | cons c rest ih =>
    intro s lit r h
    simp only [scanNumber] at h
    cases hs : s.step c with
    | none =>
      simp only [hs] at h
      split_ifs at h with ha
      · simp only [Option.some.injEq, Prod.mk.injEq] at h
        obtain ⟨rfl, rfl⟩ := h
        exact ⟨by simp, fun hf => by simp [ha] at hf⟩
    | some s1 =>
      simp only [hs, Option.map_eq_some', Prod.mk.injEq] at h
      obtain ⟨p, hp, rfl, rfl⟩ := h
      obtain ⟨h1, _⟩ := ih s1 p.1 p.2 hp
      exact ⟨by simp only [List.length_cons]; omega, fun _ => by simp⟩

theorem dropLit_consumes : ∀ (l x r : GoString), dropLit l x = some r →
    l.length + r.length = x.length := by
  intro l
  induction l with
  | nil => intro x r h; simp [dropLit] at h; subst h; simp
  | cons a l ih =>
    intro x r h
    cases x with
    | nil => simp [dropLit] at h
    | cons c x =>
      simp only [dropLit] at h
      split_ifs at h
      have := ih x r h
      simp only [List.length_cons]
      omega

theorem parseValue_consumes_step (f : Nat)
    (ihE : ∀ d x vs r, parseElems f d x = some (vs, r) → r.length < x.length)
    (ihM : ∀ d x ms r, parseMembers f d x = some (ms, r) → r.length < x.length) :
    ∀ d x v r, parseValue (f + 1) d x = some (v, r) → r.length < x.length := by
  intro d x v r h
  have hx := skipWS_length x
  rw [parseValue] at h
  rcases hs : skipWS x with _ | ⟨c, rest⟩
  · simp [hs] at h
  rw [hs] at h hx
  simp only [List.length_cons] at hx
  simp only at h
  by_cases h1 : c = 34
  · simp only [h1, if_true] at h
    rcases hq : scanString rest.length rest with _ | ⟨raw, rest1⟩
    · simp [hq] at h
    · have := scanString_consumes _ _ _ _ hq
      simp only [hq, Option.map_eq_some', Prod.mk.injEq] at h
      obtain ⟨_, _, _, rfl⟩ := h
      omega
  by_cases h2 : c = 91
  · simp only [h1, h2, if_true, if_false] at h
    by_cases hd : maxNestingDepth ≤ d
    · simp [hd] at h
    have hr := skipWS_length rest
    rcases hs2 : skipWS rest with _ | ⟨c1, rest1⟩
    · simp [hd, hs2] at h
    rw [hs2] at hr
    simp only [List.length_cons] at hr
    by_cases h3 : c1 = 93
    · simp only [hd, hs2, h3, if_true, if_false, Option.some.injEq, Prod.mk.injEq] at h
      obtain ⟨_, rfl⟩ := h
      omega
    · rcases hp : parseElems f (d + 1) (c1 :: rest1) with _ | ⟨vs, r1⟩
      · simp [hd, hs2, h3, hp] at h
      · have := ihE _ _ _ _ hp
        simp [hd, hs2, h3, hp] at h
        obtain ⟨_, rfl⟩ := h
        simp only [List.length_cons] at this
        omega
  by_cases h4 : c = 123
  · simp only [h1, h2, h4, if_true, if_false] at h
    by_cases hd : maxNestingDepth ≤ d
    · simp [hd] at h
    have hr := skipWS_length rest
    rcases hs2 : skipWS rest with _ | ⟨c1, rest1⟩
    · simp [hd, hs2] at h
    rw [hs2] at hr
    simp only [List.length_cons] at hr
    by_cases h3 : c1 = 125
    · simp only [hd, hs2, h3, if_true, if_false, Option.some.injEq, Prod.mk.injEq] at h
      obtain ⟨_, rfl⟩ := h
      omega
    · rcases hp : parseMembers f (d + 1) (c1 :: rest1) with _ | ⟨vs, r1⟩
      · simp [hd, hs2, h3, hp] at h
      · have := ihM _ _ _ _ hp
        simp [hd, hs2, h3, hp] at h
        obtain ⟨_, rfl⟩ := h
        simp only [List.length_cons] at this
        omega
  by_cases h5 : c = 45 ∨ isDigit c = true
  · simp only [h1, h2, h4, h5, if_true, if_false, Option.map_eq_some', Prod.mk.injEq] at h
    obtain ⟨p, hp, _, rfl⟩ := h
    obtain ⟨hl, hne⟩ := scanNumber_consumes _ _ _ _ hp
    have : 0 < p.1.length := List.length_pos.mpr (hne rfl)
    simp only [List.length_cons] at hl
    omega
  simp only [h1, h2, h4, h5, if_false] at h
  split_ifs at h <;>
    (simp only [Option.map_eq_some', Prod.mk.injEq] at h
     obtain ⟨p, hp, _, rfl⟩ := h
     have := dropLit_consumes _ _ _ hp
     omega)

theorem parseElems_consumes_step (f : Nat)
    (ihV : ∀ d x v r, parseValue f d x = some (v, r) → r.length < x.length)
    (ihE : ∀ d x vs r, parseElems f d x = some (vs, r) → r.length < x.length) :
    ∀ d x vs r, parseElems (f + 1) d x = some (vs, r) → r.length < x.length := by
  intro d x vs r h
  rw [parseElems] at h
  rcases hv : parseValue f d x with _ | ⟨v, rest⟩
  · simp [hv] at h
  have h1 := ihV _ _ _ _ hv
  have hr := skipWS_length rest
  rcases hs : skipWS rest with _ | ⟨c, rest1⟩
  · simp [hv, hs] at h
  rw [hs] at hr
  simp only [List.length_cons] at hr
  simp only [hv, hs] at h
  by_cases h2 : c = 44
  · simp only [h2, if_true, Option.map_eq_some', Prod.mk.injEq] at h
    obtain ⟨p, hp, _, rfl⟩ := h
    have := ihE _ _ _ _ hp
    omega
  by_cases h3 : c = 93
  · simp only [h2, h3, if_true, if_false, Option.some.injEq, Prod.mk.injEq] at h
    obtain ⟨_, rfl⟩ := h
    omega
  · simp [h2, h3] at h

theorem parseMembers_consumes_step (f : Nat)
    (ihV : ∀ d x v r, parseValue f d x = some (v, r) → r.length < x.length)
    (ihM : ∀ d x ms r, parseMembers f d x = some (ms, r) → r.length < x.length) :
    ∀ d x ms r, parseMembers (f + 1) d x = some (ms, r) → r.length < x.length := by
  intro d x ms r h
  rw [parseMembers] at h
  have hx := skipWS_length x
  rcases hs : skipWS x with _ | ⟨q, rest⟩
  · simp [hs] at h
  rw [hs] at hx
  simp only [List.length_cons] at hx
  simp only [hs] at h
  by_cases hq : q = 34
  swap
  · simp [hq] at h
  simp only [hq, if_true] at h
  rcases hk : scanString rest.length rest with _ | ⟨raw, rest1⟩
  · simp [hk] at h
  have h1 := scanString_consumes _ _ _ _ hk
  simp only [hk] at h
  rcases hu : unquote raw with _ | key
  · simp [hu] at h
  simp only [hu] at h
  have hr1 := skipWS_length rest1
  rcases hs1 : skipWS rest1 with _ | ⟨colon, rest2⟩
  · simp [hs1] at h
  rw [hs1] at hr1
  simp only [List.length_cons] at hr1
  simp only [hs1] at h
  by_cases hc : colon = 58
  swap
  · simp [hc] at h
  simp only [hc, if_true] at h
  rcases hv : parseValue f d rest2 with _ | ⟨v, rest3⟩
  · simp [hv] at h
  have h2 := ihV _ _ _ _ hv
  simp only [hv] at h
  have hr3 := skipWS_length rest3
  rcases hs3 : skipWS rest3 with _ | ⟨c, rest4⟩
  · simp [hs3] at h
  rw [hs3] at hr3
  simp only [List.length_cons] at hr3
  simp only [hs3] at h
  by_cases h3 : c = 44
  · simp only [h3, if_true, Option.map_eq_some', Prod.mk.injEq] at h
    obtain ⟨p, hp, _, rfl⟩ := h
    have := ihM _ _ _ _ hp
    omega
  by_cases h4 : c = 125
  · simp only [h3, h4, if_true, if_false, Option.some.injEq, Prod.mk.injEq] at h
    obtain ⟨_, rfl⟩ := h
    omega
  · simp [h3, h4] at h

/-- A successful parse consumes input. -/
theorem parse_consumes (f : Nat) :
    (∀ d x v r, parseValue f d x = some (v, r) → r.length < x.length)
    ∧ (∀ d x vs r, parseElems f d x = some (vs, r) → r.length < x.length)
    ∧ (∀ d x ms r, parseMembers f d x = some (ms, r) → r.length < x.length) := by
  induction f with
  | zero =>
    refine ⟨?_, ?_, ?_⟩ <;> intro d x v r h
    · simp [parseValue] at h
    · simp [parseElems] at h
    · simp [parseMembers] at h
  | succ f ih =>
    obtain ⟨ihV, ihE, ihM⟩ := ih
    exact ⟨parseValue_consumes_step f ihE ihM, parseElems_consumes_step f ihV ihE,
      parseMembers_consumes_step f ihV ihM⟩

theorem parseValue_fuel_step (f g : Nat)
    (hE : ∀ d y, 2 * y.length + 3 ≤ f → 2 * y.length + 3 ≤ g →
      parseElems f d y = parseElems g d y)
    (hM : ∀ d y, 2 * y.length + 3 ≤ f → 2 * y.length + 3 ≤ g →
      parseMembers f d y = parseMembers g d y) :
    ∀ d x, 2 * x.length + 2 ≤ f + 1 → 2 * x.length + 2 ≤ g + 1 →
      parseValue (f + 1) d x = parseValue (g + 1) d x := by
  intro d x hf hg
  have hx := skipWS_length x
  rw [parseValue, parseValue]
  rcases hs : skipWS x with _ | ⟨c, rest⟩
  · rfl
  rw [hs] at hx
  simp only [List.length_cons] at hx
  have hr := skipWS_length rest
  simp only
  rcases hs2 : skipWS rest with _ | ⟨c1, rest1⟩
  · rfl
  rw [hs2] at hr
  simp only [List.length_cons] at hr
  have e1 := hE (d + 1) (c1 :: rest1) (by simp only [List.length_cons]; omega)
    (by simp only [List.length_cons]; omega)
  have e2 := hM (d + 1) (c1 :: rest1) (by simp only [List.length_cons]; omega)
    (by simp only [List.length_cons]; omega)
  simp only [e1, e2]

theorem parseElems_fuel_step (f g : Nat)
    (hV : ∀ d y, 2 * y.length + 2 ≤ f → 2 * y.length + 2 ≤ g →
      parseValue f d y = parseValue g d y)
    (hE : ∀ d y, 2 * y.length + 3 ≤ f → 2 * y.length + 3 ≤ g →
      parseElems f d y = parseElems g d y) :
    ∀ d x, 2 * x.length + 3 ≤ f + 1 → 2 * x.length + 3 ≤ g + 1 →
      parseElems (f + 1) d x = parseElems (g + 1) d x := by
  intro d x hf hg
  rw [parseElems, parseElems, hV d x (by omega) (by omega)]
  rcases hv : parseValue g d x with _ | ⟨v, rest⟩
  · rfl
  have h1 := (parse_consumes g).1 _ _ _ _ hv
  have hr := skipWS_length rest
  simp only
  rcases hs : skipWS rest with _ | ⟨c, rest1⟩
  · rfl
  rw [hs] at hr
  simp only [List.length_cons] at hr
  simp only [hE d rest1 (by omega) (by omega)]

theorem parseMembers_fuel_step (f g : Nat)
    (hV : ∀ d y, 2 * y.length + 2 ≤ f → 2 * y.length + 2 ≤ g →
      parseValue f d y = parseValue g d y)
    (hM : ∀ d y, 2 * y.length + 3 ≤ f → 2 * y.length + 3 ≤ g →
      parseMembers f d y = parseMembers g d y) :
    ∀ d x, 2 * x.length + 3 ≤ f + 1 → 2 * x.length + 3 ≤ g + 1 →
      parseMembers (f + 1) d x = parseMembers (g + 1) d x := by
  intro d x hf hg
  have hx := skipWS_length x
  rw [parseMembers, parseMembers]
  rcases hs : skipWS x with _ | ⟨q, rest⟩
  · rfl
  rw [hs] at hx
  simp only [List.length_cons] at hx
  simp only
  by_cases hq : q = 34
  swap
  · simp only [hq, if_false]
  simp only [hq, if_true]
  rcases hk : scanString rest.length rest with _ | ⟨raw, rest1⟩
  · rfl
  have h1 := scanString_consumes _ _ _ _ hk
  simp only
  rcases hu : unquote raw with _ | key
  · rfl
  simp only
  have hr1 := skipWS_length rest1
  rcases hs1 : skipWS rest1 with _ | ⟨colon, rest2⟩
  · rfl
  rw [hs1] at hr1
  simp only [List.length_cons] at hr1
  simp only
  by_cases hc : colon = 58
  swap
  · simp only [hc, if_false]
  simp only [hc, if_true]
  rw [hV d rest2 (by omega) (by omega)]
  rcases hv : parseValue g d rest2 with _ | ⟨v, rest3⟩
  · rfl
  have h2 := (parse_consumes g).1 _ _ _ _ hv
  simp only
  have hr3 := skipWS_length rest3
  rcases hs3 : skipWS rest3 with _ | ⟨c, rest4⟩
  · rfl
  rw [hs3] at hr3
  simp only [List.length_cons] at hr3
  simp only [hM d rest4 (by omega) (by omega)]

/-- Beyond twice the length of the input, the fuel does not change what the parser returns. -/
theorem parse_fuel (f : Nat) : ∀ g,
    (∀ d x, 2 * x.length + 2 ≤ f → 2 * x.length + 2 ≤ g → parseValue f d x = parseValue g d x)
    ∧ (∀ d x, 2 * x.length + 3 ≤ f → 2 * x.length + 3 ≤ g →
      parseElems f d x = parseElems g d x)
    ∧ (∀ d x, 2 * x.length + 3 ≤ f → 2 * x.length + 3 ≤ g →
      parseMembers f d x = parseMembers g d x) := by
  induction f with
  | zero =>
    intro g
    refine ⟨?_, ?_, ?_⟩ <;> intro d x hf <;> omega
  | succ f ih =>
    intro g
    rcases g with _ | g
    · refine ⟨?_, ?_, ?_⟩ <;> intro d x _ hg <;> omega
    obtain ⟨ihV, ihE, ihM⟩ := ih g
    exact ⟨parseValue_fuel_step f g ihE ihM, parseElems_fuel_step f g ihV ihE,
      parseMembers_fuel_step f g ihV ihM⟩

/-- The fuel of `parseJSON` is enough: more fuel gives the same result. -/
theorem parseJSON_fuel (data : GoString) (f : Nat) (h : 2 * data.length + 2 ≤ f) :
    parseValue f 0 data = parseValue (2 * data.length + 2) 0 data :=
  (parse_fuel f (2 * data.length + 2)).1 0 data h (le_refl _)

end Todoist

namespace Todoist

/-! ## Decoding the response of the data calls -/

set_option maxRecDepth 100000

theorem restTasks_nil : restTasks ++ [] = restTasks := List.append_nil _

theorem restTasks_params (projectID : Int) :
    restTasks ++ Sprintf (bytesOf "?project_id=%d") [.int projectID] =
      restTasks ++ bytesOf ("?project_id=" ++ toString projectID) := by
  rw [projectParams, fmtInt_eq_toString, ← bytesOf_append]

end Todoist
